import Mathlib

set_option maxRecDepth 8000

/-!
Verification development for the parachains `dmp` pallet (downward message
passing) and its ring-buffer helper module (`runtime/parachains/src/dmp.rs`
and `runtime/parachains/src/dmp/ringbuf.rs`).

Modelling conventions (shallow embedding):
* The storage of the pallet is partitioned per `ParaId` with no cross-channel
  aliasing, so we model the state of a single channel; the `para_id`
  components of `ParaMessageIndex` / `QueuePageIndex` are dropped and keys are
  the bare wrapping indices.
* `WrappingIndex` (a `u64` with wrapping arithmetic) is modelled as `Nat`
  together with explicit `% 2^64` arithmetic (`wrapAdd`, `wrapSub`, ...).
  `u32` values are modelled as `Nat` with `% 2^32` where the source casts.
* Storage maps with `ValueQuery` semantics are modelled as `Nat → Option _`
  functions; `get` is `(· ).getD default` and `remove` stores `none`, so that
  "value removed" and "value present and equal to the default" remain
  distinguishable (the source distinguishes them via `try_get`).
* `BlakeTwo256` hashing is modelled by the free term algebra `Hash`; hashing
  is injective in this model, which is the standard idealization of a
  collision-resistant hash.
* A Rust `panic!` / failed `expect` aborts the whole call and, by the
  all-or-nothing storage semantics of the runtime, leaves no state change.
  Fallible operations therefore return `Option`, `none` meaning the call
  aborted.
-/

/-- The size of the `u64` wrapping-index space. -/
def wordSize : Nat := 2 ^ 64

/-- The size of the `u32` space, used where the source casts `as u32`. -/
def word32Size : Nat := 2 ^ 32

/-- `WrappingIndex::wrapping_add` on `u64` values. -/
def wrapAdd (a b : Nat) : Nat := (a + b) % wordSize

/-- `WrappingIndex::wrapping_sub` on `u64` values. -/
def wrapSub (a b : Nat) : Nat := (a + (wordSize - b % wordSize)) % wordSize

/-- `WrappingIndex::wrapping_inc`. -/
def wrapInc (a : Nat) : Nat := wrapAdd a 1

/-- `WrappingIndex::wrapping_dec`. -/
def wrapDec (a : Nat) : Nat := wrapSub a 1

theorem wordSize_pos : 0 < wordSize := by norm_num [wordSize]

theorem wrapAdd_lt (a b : Nat) : wrapAdd a b < wordSize :=
  Nat.mod_lt _ wordSize_pos

theorem wrapSub_lt (a b : Nat) : wrapSub a b < wordSize :=
  Nat.mod_lt _ wordSize_pos

theorem wrapInc_lt (a : Nat) : wrapInc a < wordSize := wrapAdd_lt a 1

theorem wrapDec_lt (a : Nat) : wrapDec a < wordSize := wrapSub_lt a 1

/-- Closed form of `wrapAdd` on reduced arguments. -/
theorem wrapAdd_spec {a b : Nat} (ha : a < wordSize) (hb : b < wordSize) :
    wrapAdd a b = if a + b < wordSize then a + b else a + b - wordSize := by
  unfold wrapAdd
  split
  · exact Nat.mod_eq_of_lt (by assumption)
  · have h1 : a + b - wordSize < wordSize := by omega
    have h2 : a + b = (a + b - wordSize) + 1 * wordSize := by omega
    conv_lhs => rw [h2]
    rw [Nat.add_mul_mod_self_right, Nat.mod_eq_of_lt h1]

/-- Closed form of `wrapSub` on reduced arguments. -/
theorem wrapSub_spec {a b : Nat} (ha : a < wordSize) (hb : b < wordSize) :
    wrapSub a b = if b ≤ a then a - b else a + (wordSize - b) := by
  unfold wrapSub
  rw [Nat.mod_eq_of_lt hb]
  split
  · have h2 : a + (wordSize - b) = (a - b) + 1 * wordSize := by omega
    rw [h2, Nat.add_mul_mod_self_right, Nat.mod_eq_of_lt (by omega)]
  · exact Nat.mod_eq_of_lt (by omega)

theorem wrapAdd_zero {a : Nat} (ha : a < wordSize) : wrapAdd a 0 = a := by
  unfold wrapAdd; exact Nat.mod_eq_of_lt (by omega)

theorem wrapAdd_small {a b : Nat} (h : a + b < wordSize) : wrapAdd a b = a + b := by
  unfold wrapAdd; exact Nat.mod_eq_of_lt h

/-- `wrapSub a b = 0` iff the reduced arguments agree. -/
theorem wrapSub_eq_zero_iff {a b : Nat} (ha : a < wordSize) (hb : b < wordSize) :
    wrapSub a b = 0 ↔ a = b := by
  rw [wrapSub_spec ha hb]
  split <;> omega

/-- Forward distance from `a` to `a + n` is `n` on reduced arguments. -/
theorem wrapSub_wrapAdd_self {a n : Nat} (ha : a < wordSize) (hn : n < wordSize) :
    wrapSub (wrapAdd a n) a = n := by
  rw [wrapAdd_spec ha hn]
  split
  · rw [wrapSub_spec (by omega) ha]; split <;> omega
  · rw [wrapSub_spec (by omega) ha]; split <;> omega

/-- `wrapAdd` is cancellable in its offset on reduced arguments. -/
theorem wrapAdd_right_injective {a n m : Nat} (ha : a < wordSize)
    (hn : n < wordSize) (hm : m < wordSize) (h : wrapAdd a n = wrapAdd a m) : n = m := by
  have h1 := wrapSub_wrapAdd_self ha hn
  have h2 := wrapSub_wrapAdd_self ha hm
  rw [h] at h1
  omega

theorem wrapAdd_wrapAdd (a n m : Nat) :
    wrapAdd (wrapAdd a n) m = wrapAdd a (n + m) := by
  unfold wrapAdd
  rw [Nat.mod_add_mod, Nat.add_assoc]

/-! ### Data model (`dmp/ringbuf.rs`) -/

/-- `DownwardMessage` is an opaque byte vector (`Vec<u8>`). -/
abbrev DownwardMessage := List Nat

/-- `InboundDownwardMessage`: a queued message together with the relay-chain
block number at which it was put in the queue. -/
structure InboundDownwardMessage where
  msg : DownwardMessage
  sent_at : Nat
deriving DecidableEq

/-- Free term model of `BlakeTwo256` hashes: `zero` is `Hash::zero()`,
`ofMessage m` is `T::Hashing::hash_of(&msg)`, and
`ofTriple prev b h` is `BlakeTwo256::hash_of(&(prev, b, h))`. -/
inductive Hash where
  | zero : Hash
  | ofMessage (msg : DownwardMessage) : Hash
  | ofTriple (prev : Hash) (sent_at : Nat) (msgHash : Hash) : Hash
deriving DecidableEq

/-- `MessageWindowState` from `ringbuf.rs`: the `[first, free)` message-index
window, as reduced wrapping `u64` indices. -/
structure MessageWindowState where
  first_message_idx : Nat
  free_message_idx : Nat
deriving DecidableEq

/-- `RingBufferState` from `ringbuf.rs`: the `[head, tail)` occupied page
range, as reduced wrapping `u64` indices. -/
structure RingBufferState where
  head_page_idx : Nat
  tail_page_idx : Nat
deriving DecidableEq

/-- `QueueState` from `dmp.rs`: the per-channel persisted queue state. -/
structure QueueState where
  ring_buffer_state : RingBufferState
  message_window_state : MessageWindowState
deriving DecidableEq

/-! ### Ring buffer operations (`ringbuf.rs`, `impl RingBuffer`) -/

/-- `RingBuffer::size`: `tail - head` in wrapping arithmetic. -/
def RingBufferState.size (s : RingBufferState) : Nat :=
  wrapSub s.tail_page_idx s.head_page_idx

/-- `RingBuffer::extend`: allocate the next page and return its index.
`none` models the `panic!` when the tail would collide with the head. -/
def RingBufferState.extend (s : RingBufferState) : Option (RingBufferState × Nat) :=
  if wrapInc s.tail_page_idx = s.head_page_idx then
    none
  else
    some ({ s with tail_page_idx := wrapInc s.tail_page_idx },
      wrapDec (wrapInc s.tail_page_idx))

/-- `RingBuffer::prune`: advance the head by `min(size, count)` pages.
The `count` argument is a `u32` in the source. -/
def RingBufferState.prune (s : RingBufferState) (count : Nat) : RingBufferState :=
  { s with head_page_idx := wrapAdd s.head_page_idx (min s.size count) }

/-- `RingBuffer::front`: the first used page, or `none` if the buffer is empty. -/
def RingBufferState.front (s : RingBufferState) : Option Nat :=
  if s.tail_page_idx = s.head_page_idx then none else some s.head_page_idx

/-- `RingBuffer::pop_front`: free the first used page and return its index. -/
def RingBufferState.pop_front (s : RingBufferState) : RingBufferState × Option Nat :=
  match s.front with
  | some p => ({ s with head_page_idx := wrapInc s.head_page_idx }, some p)
  | none => (s, none)

/-- `RingBuffer::last_used`: the last used page (`tail - 1`), or `none` if empty. -/
def RingBufferState.last_used (s : RingBufferState) : Option Nat :=
  if s.tail_page_idx = s.head_page_idx then none
  else some (wrapDec s.tail_page_idx)

/-- Auxiliary fuel-indexed unfolding of the `RingBufferIterator`, which
repeatedly calls `pop_front` until the buffer is empty. The fuel is the
buffer size, which decreases by one at each successful `pop_front`. -/
def ringToListAux : Nat → RingBufferState → List Nat
  | 0, _ => []
  | fuel + 1, s =>
    match s.pop_front with
    | (s', some p) => p :: ringToListAux fuel s'
    | (_, none) => []

/-- The sequence of page indices yielded by iterating the ring buffer
(`impl Iterator for RingBufferIterator`), from head to tail. -/
def RingBufferState.toList (s : RingBufferState) : List Nat :=
  ringToListAux s.size s

/-! ### Message window operations (`ringbuf.rs`, `impl MessageWindow`) -/

/-- `MessageWindow::size`: `free - first` in wrapping arithmetic. -/
def MessageWindowState.size (s : MessageWindowState) : Nat :=
  wrapSub s.free_message_idx s.first_message_idx

/-- `MessageWindow::extend`: advance the free index by `count` and return the
index of the last newly added message. `none` models the `panic!` when
a non-empty window would have its free index overtake the first index. -/
def MessageWindowState.extend (s : MessageWindowState) (count : Nat) :
    Option (MessageWindowState × Nat) :=
  if 0 < s.size ∧ wrapSub s.first_message_idx s.free_message_idx < count then
    none
  else
    some ({ s with free_message_idx := wrapAdd s.free_message_idx count },
      wrapDec (wrapAdd s.free_message_idx count))

/-- `MessageWindow::prune`: advance the first index by `min(size, count)`;
also returns the new first index, or `none` if the window became empty. -/
def MessageWindowState.prune (s : MessageWindowState) (count : Nat) :
    MessageWindowState × Option Nat :=
  let first' := wrapAdd s.first_message_idx (min s.size count)
  ({ s with first_message_idx := first' },
    if first' = s.free_message_idx then none else some first')

/-- `MessageWindow::first`: the first message index, `none` if the window is empty. -/
def MessageWindowState.first (s : MessageWindowState) : Option Nat :=
  if 0 < s.size then some s.first_message_idx else none

/-- `MessageWindow::first_free`: the first free message index. -/
def MessageWindowState.first_free (s : MessageWindowState) : Nat :=
  s.free_message_idx

/-! ### Pallet storage and operations (`dmp.rs`) -/

/-- `HostConfiguration`, restricted to the field the dmp pallet reads. -/
structure HostConfiguration where
  max_downward_message_size : Nat

/-- `QUEUE_PAGE_CAPACITY` from `dmp.rs`. The actual page capacity used by the
pallet is the `T::DmpPageCapacity` configuration constant, modelled below as
an explicit parameter `P` of every operation that touches pages. -/
def QUEUE_PAGE_CAPACITY : Nat := 32

/-- The full storage of the dmp pallet for one channel (one `ParaId`):
`DownwardMessageQueueState`, `DownwardMessageQueuePages`,
`DownwardMessageQueueHeads` (a single entry for this channel) and
`DownwardMessageQueueHeadsById`. The `Option` layers record presence of a
storage entry; `ValueQuery` reads go through `Option.getD`. -/
structure ChannelState where
  queue : QueueState
  pages : Nat → Option (List InboundDownwardMessage)
  mqcHead : Option Hash
  mqcById : Nat → Option Hash

/-- Pointwise update of a storage map. -/
def updateFn {α : Type} (f : Nat → Option α) (k : Nat) (v : Option α) :
    Nat → Option α :=
  fun i => if i = k then v else f i

/-- The implicit default state of a channel that was never written to. -/
def emptyChannel : ChannelState where
  queue := ⟨⟨0, 0⟩, ⟨0, 0⟩⟩
  pages := fun _ => none
  mqcHead := none
  mqcById := fun _ => none

/-- The window size of a channel (`free - first`, wrapping). -/
def ChannelState.windowSize (st : ChannelState) : Nat :=
  st.queue.message_window_state.size

/-- The ring size of a channel in pages (`tail - head`, wrapping). -/
def ChannelState.ringSize (st : ChannelState) : Nat :=
  st.queue.ring_buffer_state.size

/-- The number of messages stored across the channel's occupied pages, i.e.
the pages enumerated by the ring buffer from head to tail. -/
def totalOf (rb : RingBufferState) (pages : Nat → Option (List InboundDownwardMessage)) : Nat :=
  (rb.toList.map (fun p => ((pages p).getD []).length)).sum

/-- Total number of messages stored across the channel's occupied pages. -/
def ChannelState.totalMessages (st : ChannelState) : Nat :=
  totalOf st.queue.ring_buffer_state st.pages

/-- `QueueDownwardMessageError` from `dmp.rs`. -/
inductive QueueDownwardMessageError where
  | ExceedsMaxMessageSize
deriving DecidableEq

/-- `ProcessedDownwardMessagesAcceptanceErr` from `dmp.rs`. -/
inductive ProcessedDownwardMessagesAcceptanceErr where
  | AdvancementRule
  | Underflow (processed_downward_messages : Nat) (dmq_length : Nat)
deriving DecidableEq

/-- `dmq_length`: the number of pending downward messages, i.e. the message
window size truncated by the `as u32` cast in the source. -/
def dmq_length (st : ChannelState) : Nat :=
  st.queue.message_window_state.size % word32Size

/-- `check_processed_downward_messages` from `dmp.rs`; a read-only check.
The `processed_downward_messages` argument is a `u32` in the source. -/
def check_processed_downward_messages (st : ChannelState)
    (processed_downward_messages : Nat) :
    Except ProcessedDownwardMessagesAcceptanceErr Unit :=
  let len := dmq_length st
  if 0 < len ∧ processed_downward_messages = 0 then
    .error .AdvancementRule
  else if len < processed_downward_messages then
    .error (.Underflow processed_downward_messages len)
  else
    .ok ()

/-- The `ring_buf.last_used().unwrap_or_else(|| ring_buf.extend())` step of
`queue_downward_message`: the tail page, allocated fresh if the ring is empty. -/
def allocTailPage (rb : RingBufferState) : Option (RingBufferState × Nat) :=
  match rb.last_used with
  | some p => some (rb, p)
  | none => rb.extend

/-- `queue_downward_message` from `dmp.rs`, for page capacity `P`
(`T::DmpPageCapacity`) and current block number `blockNumber`.

Returns `some (.error _)` when the message is oversized (no state change in
the source), `some (.ok st')` on success, and `none` when the call would
`panic!` (window or ring index-space exhaustion, or a failed
`BoundedVec::try_from` when `P = 0`), which aborts without a state change. -/
def queue_downward_message (P : Nat) (config : HostConfiguration)
    (st : ChannelState) (blockNumber : Nat) (msg : DownwardMessage) :
    Option (Except QueueDownwardMessageError ChannelState) :=
  if msg.length > config.max_downward_message_size then
    some (.error .ExceedsMaxMessageSize)
  else
    let inbound : InboundDownwardMessage := ⟨msg, blockNumber⟩
    let new_head : Hash :=
      .ofTriple (st.mqcHead.getD .zero) inbound.sent_at (.ofMessage inbound.msg)
    match st.queue.message_window_state.extend 1 with
    | none => none
    | some (mw, new_message_idx) =>
      let mqcById' := updateFn st.mqcById new_message_idx (some new_head)
      match allocTailPage st.queue.ring_buffer_state with
      | none => none
      | some (rb1, page_idx) =>
        let page := (st.pages page_idx).getD []
        if page.length < P then
          some (.ok
            { queue := ⟨rb1, mw⟩,
              pages := updateFn st.pages page_idx (some (page ++ [inbound])),
              mqcHead := some new_head,
              mqcById := mqcById' })
        else
          match rb1.extend with
          | none => none
          | some (rb2, page_idx2) =>
            if 1 ≤ P then
              some (.ok
                { queue := ⟨rb2, mw⟩,
                  pages := updateFn st.pages page_idx2 (some [inbound]),
                  mqcHead := some new_head,
                  mqcById := mqcById' })
            else
              none

/-- The state threaded through the page-walking loop of `prune_dmq`. -/
structure PruneLoopState where
  rb : RingBufferState
  mw : MessageWindowState
  pages : Nat → Option (List InboundDownwardMessage)
  messages_to_prune : Nat
  pruned_message_count : Nat

/-- The `while messages_to_prune > 0` loop of `prune_dmq`. The fuel is the
ring size at entry: each iteration that continues pops exactly one page, so
this fuel is exact (when it runs out, `front` is `none` and the loop would
stop anyway). -/
def pruneLoop (P : Nat) : Nat → PruneLoopState → PruneLoopState
  | 0, s => s
  | fuel + 1, s =>
    if s.messages_to_prune = 0 then s
    else
      match s.rb.front with
      | none => s
      | some first_used_page =>
        let page := (s.pages first_used_page).getD []
        let messages_in_page := page.length
        if messages_in_page ≤ s.messages_to_prune then
          pruneLoop P fuel
            { rb := s.rb.pop_front.1,
              mw := (s.mw.prune messages_in_page).1,
              pages := updateFn s.pages first_used_page none,
              messages_to_prune := s.messages_to_prune - messages_in_page,
              pruned_message_count := s.pruned_message_count + messages_in_page }
        else
          { rb := s.rb,
            mw := (s.mw.prune s.messages_to_prune).1,
            pages := updateFn s.pages first_used_page
              (some (page.drop s.messages_to_prune)),
            messages_to_prune := 0,
            pruned_message_count := s.pruned_message_count + s.messages_to_prune }

/-- `prune_dmq` from `dmp.rs`. The `processed_downward_messages` argument is
a `u32`. The final MQC-head cleanup loop removes the per-message heads at the
`pruned_message_count % 2^64` indices starting at the old first index (the
loop steps a wrapping index until it reaches `first + pruned`; the `% 2^64`
is the exact number of its iterations, and `pruned_message_count < 2^64`
always holds since it is bounded by the `u32` argument).

On the `processed_downward_messages == 0` early return the source fires
`debug_assert!(false)`; in production this is a defensive no-op, which is
what we model. -/
def prune_dmq (P : Nat) (st : ChannelState) (processed_downward_messages : Nat) :
    ChannelState :=
  let mw := st.queue.message_window_state
  let queue_length := mw.size
  if queue_length = 0 then st
  else if processed_downward_messages = 0 then st
  else
    let first_mqc_key_to_remove := mw.first_message_idx
    let s := pruneLoop P st.queue.ring_buffer_state.size
      ⟨st.queue.ring_buffer_state, mw, st.pages, processed_downward_messages, 0⟩
    let removedIdxs :=
      (List.range (s.pruned_message_count % wordSize)).map
        (fun j => wrapAdd first_mqc_key_to_remove j)
    { queue := ⟨s.rb, s.mw⟩,
      pages := s.pages,
      mqcHead := st.mqcHead,
      mqcById := fun i => if i ∈ removedIdxs then none else st.mqcById i }

/-- `clean_dmp_after_outgoing` from `dmp.rs`: remove every page enumerated by
the ring buffer and the channel's global MQC head. The queue state and the
per-message MQC heads are not touched by the source. -/
def clean_dmp_after_outgoing (st : ChannelState) : ChannelState :=
  { queue := st.queue,
    pages := fun p =>
      if p ∈ st.queue.ring_buffer_state.toList then none else st.pages p,
    mqcHead := none,
    mqcById := st.mqcById }

/-- `DmqContentsBounds` from `primitives`. Both fields are `u32`. -/
structure DmqContentsBounds where
  start_page_index : Nat
  page_count : Nat

/-- `dmq_contents_bounded` from `dmp.rs`: skip `start_page_index` pages from
the head (on a disposable copy of the ring state), then concatenate the
messages of up to `page_count` pages. Read-only. -/
def dmq_contents_bounded (st : ChannelState) (bounds : DmqContentsBounds) :
    List InboundDownwardMessage :=
  let ring := st.queue.ring_buffer_state.prune bounds.start_page_index
  ((ring.toList.take bounds.page_count).map
    (fun p => (st.pages p).getD [])).flatten

/-- `dmq_contents` from `dmp.rs` (deprecated API): the bounded read starting
at page 0 with the ring size, truncated by the source's `as u32` cast, as the
page count. -/
def dmq_contents (st : ChannelState) : List InboundDownwardMessage :=
  dmq_contents_bounded st
    ⟨0, st.queue.ring_buffer_state.size % word32Size⟩

/-! ### Reachability -/

/-- States of one channel reachable from the implicit default state by any
sequence of `queue_downward_message` and `prune_dmq` calls, for a fixed page
capacity `P`. An enqueue that returns an error, or an aborted (panicking)
call, leaves the state unchanged and therefore needs no constructor. The
`prune_dmq` argument is a `u32` in the source, hence the bound. -/
inductive Reachable (P : Nat) : ChannelState → Prop where
  | init : Reachable P emptyChannel
  | enq {st st' : ChannelState} {config : HostConfiguration}
      {blockNumber : Nat} {msg : DownwardMessage} :
      Reachable P st →
      queue_downward_message P config st blockNumber msg = some (.ok st') →
      Reachable P st'
  | prune {st : ChannelState} {k : Nat} :
      Reachable P st → k < word32Size → Reachable P (prune_dmq P st k)

/-- Reachability restricted to histories in which the number of live stored
messages stays below `2^64` at every step (the "live window ≪ index space"
assumption of the spec). Only enqueues can grow the total, so the side
condition sits on the `enq` constructor. -/
inductive SafeReachable (P : Nat) : ChannelState → Prop where
  | init : SafeReachable P emptyChannel
  | enq {st st' : ChannelState} {config : HostConfiguration}
      {blockNumber : Nat} {msg : DownwardMessage} :
      SafeReachable P st →
      queue_downward_message P config st blockNumber msg = some (.ok st') →
      st'.totalMessages < wordSize →
      SafeReachable P st'
  | prune {st : ChannelState} {k : Nat} :
      SafeReachable P st → k < word32Size → SafeReachable P (prune_dmq P st k)

/-! ### The storage consistency invariant -/

/-- The queue-consistency invariant tying a ring buffer, a message window and
a page store together (cf. the invariant comments on `MessageWindowState`,
`RingBufferState` and the pallet storage items, and
`assert_storage_consistency_exhaustive`):
indices are reduced `u64` values, page records exist exactly for the occupied
page range, occupied pages are non-empty and within capacity, and the window
size equals the total number of stored messages (which stays below `2^64`). -/
structure QInv (P : Nat) (rb : RingBufferState) (mw : MessageWindowState)
    (pages : Nat → Option (List InboundDownwardMessage)) : Prop where
  head_lt : rb.head_page_idx < wordSize
  tail_lt : rb.tail_page_idx < wordSize
  first_lt : mw.first_message_idx < wordSize
  free_lt : mw.free_message_idx < wordSize
  dom : ∀ p, pages p ≠ none ↔ (p < wordSize ∧ wrapSub p rb.head_page_idx < rb.size)
  nonempty : ∀ p l, pages p = some l → l ≠ []
  bounded : ∀ p l, pages p = some l → l.length ≤ P
  sync : totalOf rb pages = mw.size
  total_lt : totalOf rb pages < wordSize

/-- The channel-level storage invariant. -/
abbrev ChannelInv (P : Nat) (st : ChannelState) : Prop :=
  QInv P st.queue.ring_buffer_state st.queue.message_window_state st.pages

/-! ### Ring buffer enumeration lemmas -/

theorem RingBufferState.size_lt (s : RingBufferState) : s.size < wordSize :=
  wrapSub_lt _ _

theorem RingBufferState.size_eq_zero_iff {s : RingBufferState}
    (hh : s.head_page_idx < wordSize) (ht : s.tail_page_idx < wordSize) :
    s.size = 0 ↔ s.tail_page_idx = s.head_page_idx :=
  wrapSub_eq_zero_iff ht hh

theorem wrapSub_wrapInc_right {t h : Nat} (ht : t < wordSize) (hh : h < wordSize)
    (hpos : 0 < wrapSub t h) : wrapSub t (wrapInc h) = wrapSub t h - 1 := by
  unfold wrapInc
  rw [wrapSub_spec ht hh] at hpos ⊢
  rw [wrapAdd_spec hh (by norm_num [wordSize])]
  by_cases hc : h + 1 < wordSize
  · rw [if_pos hc, wrapSub_spec ht (by omega)]
    split at hpos <;> (split <;> omega)
  · rw [if_neg hc, wrapSub_spec ht (by omega)]
    split at hpos <;> (split <;> omega)

theorem wrapAdd_wrapSub_cancel {a b : Nat} (ha : a < wordSize) (hb : b < wordSize) :
    wrapAdd b (wrapSub a b) = a := by
  rw [wrapSub_spec ha hb, wrapAdd_spec hb (by split <;> omega)]
  split <;> (split at * <;> omega)


/-- Iterating the ring buffer yields the pages `head, head+1, ..., tail-1`
in wrapping arithmetic. -/
theorem ringToListAux_eq {fuel : Nat} : ∀ {s : RingBufferState},
    s.head_page_idx < wordSize → s.tail_page_idx < wordSize → fuel = s.size →
    ringToListAux fuel s =
      (List.range fuel).map (fun i => wrapAdd s.head_page_idx i) := by
  induction fuel with
  | zero => intro s _ _ _; rfl
  | succ fuel ih =>
    intro s hh ht hfuel
    have hne : s.tail_page_idx ≠ s.head_page_idx := by
      intro hcontra
      rw [← RingBufferState.size_eq_zero_iff hh ht] at hcontra
      omega
    have hfront : s.front = some s.head_page_idx := by
      unfold RingBufferState.front
      rw [if_neg hne]
    have hpop : s.pop_front =
        ({ s with head_page_idx := wrapInc s.head_page_idx }, some s.head_page_idx) := by
      unfold RingBufferState.pop_front
      rw [hfront]
    unfold ringToListAux
    rw [hpop]
    show s.head_page_idx ::
        ringToListAux fuel
          { head_page_idx := wrapInc s.head_page_idx, tail_page_idx := s.tail_page_idx } =
      (List.range (fuel + 1)).map (fun i => wrapAdd s.head_page_idx i)
    have hsize : fuel = wrapSub s.tail_page_idx (wrapInc s.head_page_idx) := by
      rw [wrapSub_wrapInc_right ht hh (by rw [RingBufferState.size] at hfuel; omega)]
      rw [RingBufferState.size] at hfuel
      omega
    rw [ih (s := { s with head_page_idx := wrapInc s.head_page_idx })
      (wrapInc_lt _) ht (by simpa [RingBufferState.size] using hsize)]
    rw [List.range_succ_eq_map, List.map_cons, List.map_map, wrapAdd_zero hh]
    congr 1
    refine List.map_congr_left ?_
    intro i _
    simp only [Function.comp_apply]
    rw [wrapInc, wrapAdd_wrapAdd]
    have h1i : 1 + i = i.succ := by omega
    rw [h1i]

/-- `RingBuffer::toList` in closed form on reduced states. -/
theorem RingBufferState.toList_eq {s : RingBufferState}
    (hh : s.head_page_idx < wordSize) (ht : s.tail_page_idx < wordSize) :
    s.toList = (List.range s.size).map (fun i => wrapAdd s.head_page_idx i) :=
  ringToListAux_eq hh ht rfl

/-- A page index is enumerated by the ring buffer iff it lies in the occupied
`[head, head + size)` wrapping range. -/
theorem RingBufferState.mem_toList {s : RingBufferState}
    (hh : s.head_page_idx < wordSize) (ht : s.tail_page_idx < wordSize) {p : Nat} :
    p ∈ s.toList ↔ (p < wordSize ∧ wrapSub p s.head_page_idx < s.size) := by
  rw [s.toList_eq hh ht]
  simp only [List.mem_map, List.mem_range]
  constructor
  · rintro ⟨i, hi, rfl⟩
    refine ⟨wrapAdd_lt _ _, ?_⟩
    rw [wrapSub_wrapAdd_self hh (by have := s.size_lt; omega)]
    exact hi
  · rintro ⟨hp, hd⟩
    exact ⟨wrapSub p s.head_page_idx, hd, wrapAdd_wrapSub_cancel hp hh⟩

/-- The ring buffer enumerates pairwise distinct page indices. -/
theorem RingBufferState.toList_nodup {s : RingBufferState}
    (hh : s.head_page_idx < wordSize) (ht : s.tail_page_idx < wordSize) :
    s.toList.Nodup := by
  rw [s.toList_eq hh ht]
  refine List.Nodup.map_on ?_ (List.nodup_range _)
  intro x hx y hy hxy
  rw [List.mem_range] at hx hy
  have hs := s.size_lt
  exact wrapAdd_right_injective hh (by omega) (by omega) hxy

/-- When the buffer is non-empty, the enumeration is the head page followed
by the enumeration of the popped buffer. -/
theorem RingBufferState.toList_pop {s : RingBufferState}
    (hh : s.head_page_idx < wordSize) (ht : s.tail_page_idx < wordSize)
    (hpos : 0 < s.size) :
    s.toList = s.head_page_idx :: (s.pop_front.1).toList := by
  have hne : s.tail_page_idx ≠ s.head_page_idx := by
    intro hcontra
    rw [← RingBufferState.size_eq_zero_iff hh ht] at hcontra
    omega
  have hfront : s.front = some s.head_page_idx := by
    unfold RingBufferState.front; rw [if_neg hne]
  have hpop1 : s.pop_front.1 = { s with head_page_idx := wrapInc s.head_page_idx } := by
    unfold RingBufferState.pop_front; rw [hfront]
  have hsize' : s.pop_front.1.size = s.size - 1 := by
    rw [hpop1]
    show wrapSub s.tail_page_idx (wrapInc s.head_page_idx) = s.size - 1
    exact wrapSub_wrapInc_right ht hh hpos
  rw [RingBufferState.toList_eq hh ht,
    RingBufferState.toList_eq (by rw [hpop1]; exact wrapInc_lt _) (by rw [hpop1]; exact ht),
    hsize']
  obtain ⟨m, hm⟩ : ∃ m, s.size = m + 1 := ⟨s.size - 1, by omega⟩
  rw [hm]
  simp only [Nat.add_sub_cancel]
  rw [List.range_succ_eq_map, List.map_cons, List.map_map, wrapAdd_zero hh]
  congr 1
  refine List.map_congr_left ?_
  intro i _
  simp only [Function.comp_apply]
  rw [hpop1]
  show wrapAdd s.head_page_idx i.succ = wrapAdd (wrapInc s.head_page_idx) i
  rw [wrapInc, wrapAdd_wrapAdd]
  have h1i : 1 + i = i.succ := by omega
  rw [h1i]

/-- Pointwise-equal page stores give equal message totals. -/
theorem totalOf_congr {rb : RingBufferState}
    {pages pages' : Nat → Option (List InboundDownwardMessage)}
    (h : ∀ p ∈ rb.toList, pages' p = pages p) :
    totalOf rb pages' = totalOf rb pages := by
  unfold totalOf
  congr 1
  refine List.map_congr_left ?_
  intro p hp
  rw [h p hp]

/-! ### Operation-level helper lemmas -/

theorem updateFn_same {α : Type} (f : Nat → Option α) (k : Nat) (v : Option α) :
    updateFn f k v k = v := by
  unfold updateFn; rw [if_pos rfl]

theorem updateFn_other {α : Type} (f : Nat → Option α) (k : Nat) (v : Option α)
    {i : Nat} (h : i ≠ k) : updateFn f k v i = f i := by
  unfold updateFn; rw [if_neg h]

theorem wordSize_ge_two : 2 ≤ wordSize := by norm_num [wordSize]

theorem wrapInc_eq {a : Nat} (ha : a < wordSize) :
    wrapInc a = if a + 1 < wordSize then a + 1 else 0 := by
  unfold wrapInc
  rw [wrapAdd_spec ha (by have := wordSize_ge_two; omega)]
  split <;> omega

theorem wrapDec_wrapInc {a : Nat} (ha : a < wordSize) : wrapDec (wrapInc a) = a := by
  have h2 := wordSize_ge_two
  unfold wrapDec
  rw [wrapInc_eq ha]
  by_cases hc : a + 1 < wordSize
  · rw [if_pos hc, wrapSub_spec (by omega) (by omega)]
    split <;> omega
  · rw [if_neg hc, wrapSub_spec (by omega) (by omega)]
    split <;> omega

theorem wrapSub_wrapInc_left {t h : Nat} (ht : t < wordSize) (hh : h < wordSize)
    (hne : wrapInc t ≠ h) : wrapSub (wrapInc t) h = wrapSub t h + 1 := by
  have h2 := wordSize_ge_two
  rw [wrapInc_eq ht] at hne ⊢
  by_cases hc : t + 1 < wordSize
  · rw [if_pos hc] at hne ⊢
    rw [wrapSub_spec (by omega) hh, wrapSub_spec ht hh]
    by_cases hht : h ≤ t
    · rw [if_pos (by omega), if_pos hht]
      omega
    · rw [if_neg (by omega), if_neg hht]
      omega
  · rw [if_neg hc] at hne ⊢
    by_cases hh0 : h = 0
    · exact absurd hh0.symm hne
    · rw [wrapSub_spec (by omega) hh, wrapSub_spec ht hh]
      rw [if_neg (by omega), if_pos (by omega)]
      omega

theorem wrapDec_eq {a : Nat} (ha : a < wordSize) :
    wrapDec a = if 1 ≤ a then a - 1 else wordSize - 1 := by
  have h2 := wordSize_ge_two
  unfold wrapDec
  rw [wrapSub_spec ha (by omega)]
  split <;> omega

theorem wrapSub_wrapDec_left {t h : Nat} (ht : t < wordSize) (hh : h < wordSize)
    (hpos : 0 < wrapSub t h) : wrapSub (wrapDec t) h = wrapSub t h - 1 := by
  have h2 := wordSize_ge_two
  have hne : t ≠ h := by
    intro hcontra
    rw [hcontra, wrapSub_spec hh hh, if_pos (le_refl h)] at hpos
    omega
  have e1 := wrapSub_spec ht hh
  have e2 := wrapDec_eq ht
  by_cases hc : 1 ≤ t
  · rw [if_pos hc] at e2
    rw [e2, wrapSub_spec (a := t - 1) (b := h) (by omega) hh, e1]
    by_cases hht : h ≤ t - 1
    · rw [if_pos hht, if_pos (by omega)]
      omega
    · rw [if_neg hht, if_neg (by omega)]
      omega
  · rw [if_neg hc] at e2
    rw [e1, if_neg (by omega)] at hpos
    rw [e2, wrapSub_spec (a := wordSize - 1) (b := h) (by omega) hh, e1]
    rw [if_pos (by omega), if_neg (by omega)]
    omega

/-- The two oriented wrapping distances between distinct reduced indices sum
to the index-space size. -/
theorem wrapSub_add_wrapSub {a b : Nat} (ha : a < wordSize) (hb : b < wordSize)
    (hne : a ≠ b) : wrapSub a b + wrapSub b a = wordSize := by
  rw [wrapSub_spec ha hb, wrapSub_spec hb ha]
  split <;> (split <;> omega)

theorem wrapSub_zero {a : Nat} (ha : a < wordSize) : wrapSub a 0 = a := by
  have h2 := wordSize_ge_two
  rw [wrapSub_spec ha (by omega), if_pos (Nat.zero_le a)]
  omega

theorem MessageWindowState.size_word_lt (s : MessageWindowState) : s.size < wordSize :=
  wrapSub_lt _ _

/-- `MessageWindow::extend(1)` never panics: on a non-empty window the free
count `first - free` is non-zero, hence at least `1`. -/
theorem MessageWindowState.extend_one (s : MessageWindowState)
    (hfirst : s.first_message_idx < wordSize) (hfree : s.free_message_idx < wordSize) :
    s.extend 1 =
      some ({ s with free_message_idx := wrapAdd s.free_message_idx 1 },
        s.free_message_idx) := by
  have hguard : ¬ (0 < s.size ∧
      wrapSub s.first_message_idx s.free_message_idx < 1) := by
    rintro ⟨hpos, hlt⟩
    have h0 : wrapSub s.first_message_idx s.free_message_idx = 0 := by omega
    rw [wrapSub_eq_zero_iff hfirst hfree] at h0
    have hsz : s.size = 0 := by
      rw [MessageWindowState.size, h0, wrapSub_spec hfree hfree, if_pos (le_refl _)]
      omega
    omega
  have hdec : wrapDec (wrapAdd s.free_message_idx 1) = s.free_message_idx :=
    wrapDec_wrapInc hfree
  unfold MessageWindowState.extend
  rw [if_neg hguard, hdec]

/-- Window size after a non-wrapping `extend(1)`. -/
theorem MessageWindowState.size_extend_one_of_lt (s : MessageWindowState)
    (hfirst : s.first_message_idx < wordSize) (hfree : s.free_message_idx < wordSize)
    (hlt : s.size + 1 < wordSize) :
    ({ s with free_message_idx := wrapAdd s.free_message_idx 1 } :
      MessageWindowState).size = s.size + 1 := by
  have h2 := wordSize_ge_two
  have hne : wrapInc s.free_message_idx ≠ s.first_message_idx := by
    intro hcontra
    have h1 : wrapSub s.first_message_idx s.free_message_idx = 1 := by
      rw [← hcontra]
      exact wrapSub_wrapAdd_self hfree (by omega)
    have hne2 : s.first_message_idx ≠ s.free_message_idx := by
      intro hcontra2
      rw [hcontra2, wrapSub_spec hfree hfree, if_pos (le_refl _)] at h1
      omega
    have hsum := wrapSub_add_wrapSub hfirst hfree hne2
    rw [MessageWindowState.size] at hlt
    omega
  have hstep := wrapSub_wrapInc_left hfree hfirst hne
  show wrapSub (wrapAdd s.free_message_idx 1) s.first_message_idx = s.size + 1
  rw [MessageWindowState.size]
  exact hstep

theorem RingBufferState.extend_eq {s : RingBufferState}
    (ht : s.tail_page_idx < wordSize)
    (hne : wrapInc s.tail_page_idx ≠ s.head_page_idx) :
    s.extend =
      some ({ s with tail_page_idx := wrapInc s.tail_page_idx }, s.tail_page_idx) := by
  unfold RingBufferState.extend
  rw [if_neg hne, wrapDec_wrapInc ht]

theorem RingBufferState.size_tail_inc {s : RingBufferState}
    (hh : s.head_page_idx < wordSize) (ht : s.tail_page_idx < wordSize)
    (hne : wrapInc s.tail_page_idx ≠ s.head_page_idx) :
    ({ s with tail_page_idx := wrapInc s.tail_page_idx } : RingBufferState).size
      = s.size + 1 := by
  show wrapSub (wrapInc s.tail_page_idx) s.head_page_idx = s.size + 1
  rw [RingBufferState.size]
  exact wrapSub_wrapInc_left ht hh hne

theorem RingBufferState.toList_tail_inc {s : RingBufferState}
    (hh : s.head_page_idx < wordSize) (ht : s.tail_page_idx < wordSize)
    (hne : wrapInc s.tail_page_idx ≠ s.head_page_idx) :
    ({ s with tail_page_idx := wrapInc s.tail_page_idx } : RingBufferState).toList
      = s.toList ++ [s.tail_page_idx] := by
  rw [RingBufferState.toList_eq (s := { s with tail_page_idx := wrapInc s.tail_page_idx })
      hh (wrapInc_lt _),
    RingBufferState.toList_eq hh ht, RingBufferState.size_tail_inc hh ht hne,
    List.range_succ, List.map_append]
  congr 1
  show [wrapAdd s.head_page_idx s.size] = [s.tail_page_idx]
  rw [RingBufferState.size, wrapAdd_wrapSub_cancel ht hh]

theorem RingBufferState.front_eq_some {s : RingBufferState}
    (hh : s.head_page_idx < wordSize) (ht : s.tail_page_idx < wordSize)
    (hpos : 0 < s.size) : s.front = some s.head_page_idx := by
  unfold RingBufferState.front
  rw [if_neg]
  intro hcontra
  rw [← RingBufferState.size_eq_zero_iff hh ht] at hcontra
  omega

theorem RingBufferState.front_eq_none {s : RingBufferState}
    (hh : s.head_page_idx < wordSize) (ht : s.tail_page_idx < wordSize)
    (h0 : s.size = 0) : s.front = none := by
  unfold RingBufferState.front
  rw [if_pos ((RingBufferState.size_eq_zero_iff hh ht).mp h0)]

theorem RingBufferState.pop_front_of_pos {s : RingBufferState}
    (hh : s.head_page_idx < wordSize) (ht : s.tail_page_idx < wordSize)
    (hpos : 0 < s.size) :
    s.pop_front =
      ({ s with head_page_idx := wrapInc s.head_page_idx }, some s.head_page_idx) := by
  unfold RingBufferState.pop_front
  rw [RingBufferState.front_eq_some hh ht hpos]

theorem RingBufferState.last_used_eq {s : RingBufferState}
    (hh : s.head_page_idx < wordSize) (ht : s.tail_page_idx < wordSize)
    (hpos : 0 < s.size) : s.last_used = some (wrapDec s.tail_page_idx) := by
  unfold RingBufferState.last_used
  rw [if_neg]
  intro hcontra
  rw [← RingBufferState.size_eq_zero_iff hh ht] at hcontra
  omega

theorem RingBufferState.last_used_eq_none {s : RingBufferState}
    (hh : s.head_page_idx < wordSize) (ht : s.tail_page_idx < wordSize)
    (h0 : s.size = 0) : s.last_used = none := by
  unfold RingBufferState.last_used
  rw [if_pos ((RingBufferState.size_eq_zero_iff hh ht).mp h0)]

/-- The tail page index itself is never enumerated (it is the first unused
page). -/
theorem RingBufferState.tail_not_mem_toList {s : RingBufferState}
    (hh : s.head_page_idx < wordSize) (ht : s.tail_page_idx < wordSize) :
    s.tail_page_idx ∉ s.toList := by
  rw [RingBufferState.mem_toList hh ht]
  rintro ⟨-, hcontra⟩
  rw [RingBufferState.size] at hcontra
  omega

theorem totalOf_update_not_mem {rb : RingBufferState}
    {pages : Nat → Option (List InboundDownwardMessage)} {p : Nat}
    {v : Option (List InboundDownwardMessage)} (hp : p ∉ rb.toList) :
    totalOf rb (updateFn pages p v) = totalOf rb pages :=
  totalOf_congr (fun q hq => updateFn_other _ _ _ (by rintro rfl; exact hp hq))

/-- Structural characterization of a successful `queue_downward_message`:
the message passed the size check, the window was extended by one, the MQC
heads were updated, and the message went either into the existing tail page
(which had room) or into a freshly allocated page as its sole entry. -/
theorem queue_downward_message_ok_cases {P : Nat} {config : HostConfiguration}
    {st st' : ChannelState} {blockNumber : Nat} {msg : DownwardMessage}
    (h : queue_downward_message P config st blockNumber msg = some (.ok st')) :
    msg.length ≤ config.max_downward_message_size ∧
    ∃ mw newIdx rb1 pidx,
      st.queue.message_window_state.extend 1 = some (mw, newIdx) ∧
      allocTailPage st.queue.ring_buffer_state = some (rb1, pidx) ∧
      ((((st.pages pidx).getD []).length < P ∧
        st' = { queue := ⟨rb1, mw⟩,
                pages := updateFn st.pages pidx
                  (some ((st.pages pidx).getD [] ++ [⟨msg, blockNumber⟩])),
                mqcHead := some (.ofTriple (st.mqcHead.getD .zero) blockNumber
                  (.ofMessage msg)),
                mqcById := updateFn st.mqcById newIdx
                  (some (.ofTriple (st.mqcHead.getD .zero) blockNumber
                    (.ofMessage msg))) }) ∨
       (¬ ((st.pages pidx).getD []).length < P ∧ 1 ≤ P ∧
        ∃ rb2 pidx2,
          rb1.extend = some (rb2, pidx2) ∧
          st' = { queue := ⟨rb2, mw⟩,
                  pages := updateFn st.pages pidx2 (some [⟨msg, blockNumber⟩]),
                  mqcHead := some (.ofTriple (st.mqcHead.getD .zero) blockNumber
                    (.ofMessage msg)),
                  mqcById := updateFn st.mqcById newIdx
                    (some (.ofTriple (st.mqcHead.getD .zero) blockNumber
                      (.ofMessage msg))) })) := by
  unfold queue_downward_message at h
  split at h
  · simp at h
  · rename_i hsize
    refine ⟨by omega, ?_⟩
    dsimp only at h
    split at h
    · simp at h
    · rename_i mw newIdx hext
      split at h
      · simp at h
      · rename_i rb1 pidx halloc
        refine ⟨mw, newIdx, rb1, pidx, hext, halloc, ?_⟩
        split at h
        · rename_i hroom
          left
          refine ⟨hroom, ?_⟩
          simp only [Option.some.injEq, Except.ok.injEq] at h
          exact h.symm
        · rename_i hfull
          split at h
          · simp at h
          · rename_i rb2 pidx2 hext2
            split at h
            · rename_i hcap
              right
              refine ⟨hfull, hcap, rb2, pidx2, hext2, ?_⟩
              simp only [Option.some.injEq, Except.ok.injEq] at h
              exact h.symm
            · simp at h

theorem wrapInc_ne_self {a : Nat} (ha : a < wordSize) : wrapInc a ≠ a := by
  have h2 := wordSize_ge_two
  rw [wrapInc_eq ha]
  split <;> omega

theorem allocTailPage_cases {rb rb1 : RingBufferState} {pidx : Nat}
    (hh : rb.head_page_idx < wordSize) (ht : rb.tail_page_idx < wordSize)
    (h : allocTailPage rb = some (rb1, pidx)) :
    (0 < rb.size ∧ rb1 = rb ∧ pidx = wrapDec rb.tail_page_idx) ∨
    (rb.size = 0 ∧ wrapInc rb.tail_page_idx ≠ rb.head_page_idx ∧
      rb1 = { rb with tail_page_idx := wrapInc rb.tail_page_idx } ∧
      pidx = rb.tail_page_idx) := by
  unfold allocTailPage at h
  by_cases hpos : 0 < rb.size
  · rw [RingBufferState.last_used_eq hh ht hpos] at h
    simp only [Option.some.injEq, Prod.mk.injEq] at h
    exact Or.inl ⟨hpos, h.1.symm, h.2.symm⟩
  · have h0 : rb.size = 0 := by omega
    rw [RingBufferState.last_used_eq_none hh ht h0] at h
    have hne : wrapInc rb.tail_page_idx ≠ rb.head_page_idx := by
      have heq : rb.tail_page_idx = rb.head_page_idx :=
        (RingBufferState.size_eq_zero_iff hh ht).mp h0
      rw [heq]
      exact wrapInc_ne_self hh
    change rb.extend = some (rb1, pidx) at h
    rw [RingBufferState.extend_eq ht hne] at h
    simp only [Option.some.injEq, Prod.mk.injEq] at h
    exact Or.inr ⟨h0, hne, h.1.symm, h.2.symm⟩

/-- The last used page is enumerated by the ring buffer. -/
theorem RingBufferState.last_used_mem_toList {s : RingBufferState}
    (hh : s.head_page_idx < wordSize) (ht : s.tail_page_idx < wordSize)
    (hpos : 0 < s.size) : wrapDec s.tail_page_idx ∈ s.toList := by
  rw [RingBufferState.mem_toList hh ht]
  refine ⟨wrapDec_lt _, ?_⟩
  rw [wrapSub_wrapDec_left ht hh hpos]
  have hsz : s.size = wrapSub s.tail_page_idx s.head_page_idx := rfl
  omega

/-- Updating the page store at one enumerated page shifts the message total
by the difference in that page's length. -/
theorem sum_lengths_update {l : List Nat} {p : Nat} (hnd : l.Nodup) (hp : p ∈ l)
    (pages : Nat → Option (List InboundDownwardMessage))
    (w : Option (List InboundDownwardMessage)) :
    (l.map (fun q => ((updateFn pages p w q).getD []).length)).sum
        + ((pages p).getD []).length
      = (l.map (fun q => ((pages q).getD []).length)).sum + (w.getD []).length := by
  induction l with
  | nil => cases hp
  | cons a l ih =>
    rw [List.nodup_cons] at hnd
    simp only [List.map_cons, List.sum_cons]
    rcases List.mem_cons.mp hp with rfl | hmem
    · rw [updateFn_same]
      have hcongr : ∀ q ∈ l,
          ((updateFn pages p w q).getD []).length = ((pages q).getD []).length :=
        fun q hq => by rw [updateFn_other _ _ _ (by rintro rfl; exact hnd.1 hq)]
      have hmapeq : l.map (fun q => ((updateFn pages p w q).getD []).length)
          = l.map (fun q => ((pages q).getD []).length) :=
        List.map_congr_left hcongr
      rw [hmapeq]
      omega
    · rw [updateFn_other _ _ _ (by rintro rfl; exact hnd.1 hmem)]
      have := ih hnd.2 hmem
      omega

/-- Appending one message to the last used page grows the total by one. -/
theorem totalOf_push {rb : RingBufferState}
    {pages : Nat → Option (List InboundDownwardMessage)}
    (hh : rb.head_page_idx < wordSize) (ht : rb.tail_page_idx < wordSize)
    (hpos : 0 < rb.size) (inb : InboundDownwardMessage) :
    totalOf rb (updateFn pages (wrapDec rb.tail_page_idx)
        (some ((pages (wrapDec rb.tail_page_idx)).getD [] ++ [inb])))
      = totalOf rb pages + 1 := by
  have hsum := sum_lengths_update (RingBufferState.toList_nodup hh ht)
    (RingBufferState.last_used_mem_toList hh ht hpos) pages
    (some ((pages (wrapDec rb.tail_page_idx)).getD [] ++ [inb]))
  simp only [Option.getD_some, List.length_append, List.length_cons,
    List.length_nil] at hsum
  unfold totalOf
  omega

/-- Storing one message in a freshly allocated tail page grows the total by
one. -/
theorem totalOf_newpage {rb : RingBufferState}
    {pages : Nat → Option (List InboundDownwardMessage)}
    (hh : rb.head_page_idx < wordSize) (ht : rb.tail_page_idx < wordSize)
    (hne : wrapInc rb.tail_page_idx ≠ rb.head_page_idx)
    (inb : InboundDownwardMessage) :
    totalOf { rb with tail_page_idx := wrapInc rb.tail_page_idx }
        (updateFn pages rb.tail_page_idx (some [inb]))
      = totalOf rb pages + 1 := by
  have htnm := RingBufferState.tail_not_mem_toList hh ht
  unfold totalOf
  rw [RingBufferState.toList_tail_inc hh ht hne, List.map_append, List.sum_append]
  have hcongr : ∀ q ∈ rb.toList,
      ((updateFn pages rb.tail_page_idx (some [inb]) q).getD []).length
        = ((pages q).getD []).length :=
    fun q hq => by rw [updateFn_other _ _ _ (by rintro rfl; exact htnm hq)]
  have hmapeq : rb.toList.map
        (fun q => ((updateFn pages rb.tail_page_idx (some [inb]) q).getD []).length)
      = rb.toList.map (fun q => ((pages q).getD []).length) :=
    List.map_congr_left hcongr
  rw [hmapeq]
  simp only [List.map_cons, List.map_nil, List.sum_cons, List.sum_nil]
  rw [updateFn_same]
  simp

/-- Pushing a message into a tail page that has room preserves the storage
invariant (with the window extended by one). -/
theorem QInv.push_step {P : Nat} {rb : RingBufferState} {mw : MessageWindowState}
    {pages : Nat → Option (List InboundDownwardMessage)}
    (hInv : QInv P rb mw pages) (hpos : 0 < rb.size)
    (inb : InboundDownwardMessage)
    (hroom : ((pages (wrapDec rb.tail_page_idx)).getD []).length < P)
    (hlt : totalOf rb pages + 1 < wordSize) :
    QInv P rb { mw with free_message_idx := wrapAdd mw.free_message_idx 1 }
      (updateFn pages (wrapDec rb.tail_page_idx)
        (some ((pages (wrapDec rb.tail_page_idx)).getD [] ++ [inb]))) := by
  have hh := hInv.head_lt
  have ht := hInv.tail_lt
  have htot := @totalOf_push rb pages hh ht hpos inb
  have hszlt : mw.size + 1 < wordSize := by
    have := hInv.sync
    omega
  have hpd : wrapSub (wrapDec rb.tail_page_idx) rb.head_page_idx = rb.size - 1 :=
    wrapSub_wrapDec_left ht hh hpos
  refine ⟨hh, ht, hInv.first_lt, wrapAdd_lt _ _, ?_, ?_, ?_, ?_, ?_⟩
  · intro q
    rcases eq_or_ne q (wrapDec rb.tail_page_idx) with hq | hq
    · rw [hq, updateFn_same]
      simp only [ne_eq, reduceCtorEq, not_false_eq_true, true_iff]
      exact ⟨wrapDec_lt _, by omega⟩
    · rw [updateFn_other _ _ _ hq]
      exact hInv.dom q
  · intro q l hl
    rcases eq_or_ne q (wrapDec rb.tail_page_idx) with hq | hq
    · rw [hq, updateFn_same] at hl
      simp only [Option.some.injEq] at hl
      rw [← hl]
      simp
    · rw [updateFn_other _ _ _ hq] at hl
      exact hInv.nonempty q l hl
  · intro q l hl
    rcases eq_or_ne q (wrapDec rb.tail_page_idx) with hq | hq
    · rw [hq, updateFn_same] at hl
      simp only [Option.some.injEq] at hl
      rw [← hl]
      simp only [List.length_append, List.length_cons, List.length_nil]
      omega
    · rw [updateFn_other _ _ _ hq] at hl
      exact hInv.bounded q l hl
  · rw [htot, MessageWindowState.size_extend_one_of_lt _ hInv.first_lt hInv.free_lt hszlt,
      hInv.sync]
  · rw [htot]
    exact hlt

/-- Storing a message as the sole entry of a freshly allocated page preserves
the storage invariant (with the window extended by one). -/
theorem QInv.newpage_step {P : Nat} {rb : RingBufferState} {mw : MessageWindowState}
    {pages : Nat → Option (List InboundDownwardMessage)}
    (hInv : QInv P rb mw pages)
    (hne : wrapInc rb.tail_page_idx ≠ rb.head_page_idx) (hcap : 1 ≤ P)
    (inb : InboundDownwardMessage)
    (hlt : totalOf rb pages + 1 < wordSize) :
    QInv P { rb with tail_page_idx := wrapInc rb.tail_page_idx }
      { mw with free_message_idx := wrapAdd mw.free_message_idx 1 }
      (updateFn pages rb.tail_page_idx (some [inb])) := by
  have hh := hInv.head_lt
  have ht := hInv.tail_lt
  have htot := @totalOf_newpage rb pages hh ht hne inb
  have hszlt : mw.size + 1 < wordSize := by
    have := hInv.sync
    omega
  have hsizeinc := RingBufferState.size_tail_inc hh ht hne
  have hszeq : rb.size = wrapSub rb.tail_page_idx rb.head_page_idx := rfl
  refine ⟨hh, wrapInc_lt _, hInv.first_lt, wrapAdd_lt _ _, ?_, ?_, ?_, ?_, ?_⟩
  · intro q
    show updateFn pages rb.tail_page_idx (some [inb]) q ≠ none ↔
      q < wordSize ∧ wrapSub q rb.head_page_idx < RingBufferState.size _
    rw [hsizeinc]
    rcases eq_or_ne q rb.tail_page_idx with hq | hq
    · rw [hq, updateFn_same]
      simp only [ne_eq, reduceCtorEq, not_false_eq_true, true_iff]
      exact ⟨ht, by omega⟩
    · rw [updateFn_other _ _ _ hq, hInv.dom q]
      constructor
      · rintro ⟨hqlt, hqd⟩
        exact ⟨hqlt, by omega⟩
      · rintro ⟨hqlt, hqd⟩
        refine ⟨hqlt, ?_⟩
        rcases Nat.lt_or_ge (wrapSub q rb.head_page_idx) rb.size with hlt2 | hge2
        · exact hlt2
        · exfalso
          have heq : wrapSub q rb.head_page_idx = rb.size := by omega
          apply hq
          have hc := wrapAdd_wrapSub_cancel hqlt hh
          rw [heq] at hc
          rw [← hc, hszeq, wrapAdd_wrapSub_cancel ht hh]
  · intro q l hl
    rcases eq_or_ne q rb.tail_page_idx with hq | hq
    · rw [hq, updateFn_same] at hl
      simp only [Option.some.injEq] at hl
      rw [← hl]
      simp
    · rw [updateFn_other _ _ _ hq] at hl
      exact hInv.nonempty q l hl
  · intro q l hl
    rcases eq_or_ne q rb.tail_page_idx with hq | hq
    · rw [hq, updateFn_same] at hl
      simp only [Option.some.injEq] at hl
      rw [← hl]
      simpa using hcap
    · rw [updateFn_other _ _ _ hq] at hl
      exact hInv.bounded q l hl
  · rw [htot, MessageWindowState.size_extend_one_of_lt _ hInv.first_lt hInv.free_lt hszlt,
      hInv.sync]
  · rw [htot]
    exact hlt

/-- A successful enqueue stores exactly one more message, does not move the
window's first index, and preserves the storage invariant whenever the new
total stays below the index-space size. -/
theorem queue_downward_message_preserves_inv {P : Nat} {config : HostConfiguration}
    {st st' : ChannelState} {blockNumber : Nat} {msg : DownwardMessage}
    (hInv : ChannelInv P st)
    (h : queue_downward_message P config st blockNumber msg = some (.ok st')) :
    st'.totalMessages = st.totalMessages + 1 ∧
    st'.queue.message_window_state.first_message_idx =
      st.queue.message_window_state.first_message_idx ∧
    (st'.totalMessages < wordSize → ChannelInv P st') := by
  obtain ⟨hmsgsize, mwx, newIdx, rb1, pidx, hext, halloc, hbranch⟩ :=
    queue_downward_message_ok_cases h
  rw [MessageWindowState.extend_one _ hInv.first_lt hInv.free_lt] at hext
  simp only [Option.some.injEq, Prod.mk.injEq] at hext
  obtain ⟨hmwx, hnewIdx⟩ := hext
  subst hmwx hnewIdx
  have hhlt := hInv.head_lt
  have htlt := hInv.tail_lt
  rcases allocTailPage_cases hhlt htlt halloc with
    ⟨hpos, hrb1, hpidx⟩ | ⟨h0, hne, hrb1, hpidx⟩
  · -- ring buffer non-empty: the tail page is `tail - 1`
    rw [hrb1, hpidx] at hbranch
    rcases hbranch with ⟨hroom, hst'⟩ | ⟨hfull, hcap, rb2, pidx2, hext2, hst'⟩
    · -- the tail page has room: the message is appended to it
      rw [hst']
      refine ⟨totalOf_push hhlt htlt hpos ⟨msg, blockNumber⟩,
        rfl, fun htot' => ?_⟩
      unfold ChannelState.totalMessages at htot'
      dsimp only at htot'
      rw [totalOf_push hhlt htlt hpos ⟨msg, blockNumber⟩] at htot'
      exact hInv.push_step hpos ⟨msg, blockNumber⟩ hroom htot'
    · -- the tail page is full: a fresh page is allocated
      obtain ⟨hne2, hrb2, hpidx2⟩ : wrapInc st.queue.ring_buffer_state.tail_page_idx ≠
            st.queue.ring_buffer_state.head_page_idx ∧
          rb2 = { st.queue.ring_buffer_state with
            tail_page_idx := wrapInc st.queue.ring_buffer_state.tail_page_idx } ∧
          pidx2 = st.queue.ring_buffer_state.tail_page_idx := by
        unfold RingBufferState.extend at hext2
        split at hext2
        · simp at hext2
        · rename_i hne2
          simp only [Option.some.injEq, Prod.mk.injEq] at hext2
          exact ⟨hne2, hext2.1.symm, by rw [← hext2.2, wrapDec_wrapInc htlt]⟩
      rw [hrb2, hpidx2] at hst'
      rw [hst']
      refine ⟨totalOf_newpage hhlt htlt hne2 ⟨msg, blockNumber⟩,
        rfl, fun htot' => ?_⟩
      unfold ChannelState.totalMessages at htot'
      dsimp only at htot'
      rw [totalOf_newpage hhlt htlt hne2 ⟨msg, blockNumber⟩] at htot'
      exact hInv.newpage_step hne2 hcap ⟨msg, blockNumber⟩ htot'
  · -- ring buffer empty: `allocTailPage` allocated a fresh first page
    rw [hrb1, hpidx] at hbranch
    have hpagenone : st.pages st.queue.ring_buffer_state.tail_page_idx = none := by
      by_cases hc : st.pages st.queue.ring_buffer_state.tail_page_idx = none
      · exact hc
      · exfalso
        obtain ⟨-, hcd⟩ := (hInv.dom _).mp hc
        omega
    rcases hbranch with ⟨hroom, hst'⟩ | ⟨hfull, hcap, rb2, pidx2, hext2, hst'⟩
    · -- the message is pushed into the fresh (empty) page
      rw [hpagenone] at hst' hroom
      simp only [Option.getD_none, List.nil_append] at hst'
      rw [hst']
      have hcap : 1 ≤ P := by simpa using hroom
      refine ⟨totalOf_newpage hhlt htlt hne ⟨msg, blockNumber⟩,
        rfl, fun htot' => ?_⟩
      unfold ChannelState.totalMessages at htot'
      dsimp only at htot'
      rw [totalOf_newpage hhlt htlt hne ⟨msg, blockNumber⟩] at htot'
      exact hInv.newpage_step hne hcap ⟨msg, blockNumber⟩ htot'
    · -- impossible: a fresh page is empty, so it has room whenever `1 ≤ P`
      exfalso
      rw [hpagenone] at hfull
      simp only [Option.getD_none, List.length_nil] at hfull
      omega

theorem wrapSub_wrapAdd_right {a b n : Nat} (ha : a < wordSize) (hb : b < wordSize)
    (hn : n ≤ wrapSub a b) : wrapSub a (wrapAdd b n) = wrapSub a b - n := by
  have h2 := wordSize_ge_two
  have hnW : n < wordSize := by
    have := wrapSub_lt a b
    omega
  have e1 := wrapSub_spec ha hb
  rw [wrapAdd_spec hb hnW]
  rw [e1] at hn
  by_cases hc : b + n < wordSize
  · rw [if_pos hc, wrapSub_spec ha (by omega), e1]
    by_cases hba : b ≤ a
    · rw [if_pos hba] at hn ⊢
      by_cases hbna : b + n ≤ a
      · rw [if_pos hbna]; omega
      · rw [if_neg hbna]; omega
    · rw [if_neg hba] at hn ⊢
      by_cases hbna : b + n ≤ a
      · rw [if_pos hbna]; omega
      · rw [if_neg hbna]; omega
  · rw [if_neg hc, wrapSub_spec ha (by omega), e1]
    by_cases hba : b ≤ a
    · rw [if_pos hba] at hn ⊢
      by_cases hbna : b + n - wordSize ≤ a
      · rw [if_pos hbna]; omega
      · rw [if_neg hbna]; omega
    · rw [if_neg hba] at hn ⊢
      by_cases hbna : b + n - wordSize ≤ a
      · rw [if_pos hbna]; omega
      · rw [if_neg hbna]; omega

theorem wrapSub_wrapInc_self {a : Nat} (ha : a < wordSize) :
    wrapSub a (wrapInc a) = wordSize - 1 := by
  have h2 := wordSize_ge_two
  rw [wrapInc_eq ha]
  by_cases hc : a + 1 < wordSize
  · rw [if_pos hc, wrapSub_spec ha (by omega)]
    split <;> omega
  · rw [if_neg hc, wrapSub_spec ha (by omega)]
    split <;> omega

/-- In an invariant-consistent queue, a zero total means the ring is empty
and no page record exists at all. -/
theorem QInv.total_zero {P : Nat} {rb : RingBufferState} {mw : MessageWindowState}
    {pages : Nat → Option (List InboundDownwardMessage)}
    (hInv : QInv P rb mw pages) (hT : totalOf rb pages = 0) :
    rb.head_page_idx = rb.tail_page_idx ∧ ∀ p, pages p = none := by
  have hh := hInv.head_lt
  have ht := hInv.tail_lt
  have hsz : rb.size = 0 := by
    by_contra hc
    have hpos : 0 < rb.size := by omega
    have hmem : rb.head_page_idx ∈ rb.toList := by
      rw [RingBufferState.mem_toList hh ht]
      refine ⟨hh, ?_⟩
      rw [wrapSub_spec hh hh, if_pos (le_refl _)]
      omega
    obtain ⟨l, hl⟩ : ∃ l, pages rb.head_page_idx = some l := by
      rcases hx : pages rb.head_page_idx with - | l
      · exfalso
        have := (hInv.dom rb.head_page_idx).mpr ⟨hh, by
          rw [wrapSub_spec hh hh, if_pos (le_refl _)]
          omega⟩
        exact this hx
      · exact ⟨l, rfl⟩
    have hlen : 0 < l.length :=
      List.length_pos.mpr (hInv.nonempty _ _ hl)
    have hle : l.length ≤ (rb.toList.map (fun q => ((pages q).getD []).length)).sum := by
      refine List.single_le_sum (fun x _ => Nat.zero_le x) _ ?_
      rw [List.mem_map]
      exact ⟨rb.head_page_idx, hmem, by simp [hl]⟩
    unfold totalOf at hT
    omega
  refine ⟨((RingBufferState.size_eq_zero_iff hh ht).mp hsz).symm, fun p => ?_⟩
  by_cases hc : pages p = none
  · exact hc
  · exfalso
    obtain ⟨-, hcd⟩ := (hInv.dom p).mp hc
    omega

theorem MessageWindowState.prune_fst {s : MessageWindowState} {count : Nat}
    (hc : count ≤ s.size) :
    (s.prune count).1 =
      { s with first_message_idx := wrapAdd s.first_message_idx count } := by
  unfold MessageWindowState.prune
  dsimp only
  rw [Nat.min_eq_right hc]

theorem MessageWindowState.size_prune {s : MessageWindowState} {count : Nat}
    (hfirst : s.first_message_idx < wordSize) (hfree : s.free_message_idx < wordSize)
    (hc : count ≤ s.size) :
    ({ s with first_message_idx := wrapAdd s.first_message_idx count } :
      MessageWindowState).size = s.size - count := by
  show wrapSub s.free_message_idx (wrapAdd s.first_message_idx count) = s.size - count
  exact wrapSub_wrapAdd_right hfree hfirst hc

/-- In an invariant-consistent non-empty queue the head page holds a
non-empty, within-capacity message list. -/
theorem QInv.head_page {P : Nat} {rb : RingBufferState} {mw : MessageWindowState}
    {pages : Nat → Option (List InboundDownwardMessage)}
    (hInv : QInv P rb mw pages) (hpos : 0 < rb.size) :
    ∃ l, pages rb.head_page_idx = some l ∧ l ≠ [] ∧ l.length ≤ P := by
  have hh := hInv.head_lt
  obtain ⟨l, hl⟩ : ∃ l, pages rb.head_page_idx = some l := by
    rcases hx : pages rb.head_page_idx with - | l
    · exfalso
      refine (hInv.dom rb.head_page_idx).mpr ⟨hh, ?_⟩ hx
      rw [wrapSub_spec hh hh, if_pos (le_refl _)]
      omega
    · exact ⟨l, rfl⟩
  exact ⟨l, hl, hInv.nonempty _ _ hl, hInv.bounded _ _ hl⟩

/-- The head page is enumerated by the ring buffer. -/
theorem RingBufferState.head_mem_toList {s : RingBufferState}
    (hh : s.head_page_idx < wordSize) (ht : s.tail_page_idx < wordSize)
    (hpos : 0 < s.size) : s.head_page_idx ∈ s.toList := by
  rw [RingBufferState.mem_toList hh ht]
  refine ⟨hh, ?_⟩
  rw [wrapSub_spec hh hh, if_pos (le_refl _)]
  omega

/-- Dropping the whole head page (branch one of the prune loop) preserves the
storage invariant and removes exactly that page's messages from the total. -/
theorem QInv.drop_page {P : Nat} {rb : RingBufferState} {mw : MessageWindowState}
    {pages : Nat → Option (List InboundDownwardMessage)} {l : List InboundDownwardMessage}
    (hInv : QInv P rb mw pages) (hpos : 0 < rb.size)
    (hl : pages rb.head_page_idx = some l) :
    totalOf { rb with head_page_idx := wrapInc rb.head_page_idx }
        (updateFn pages rb.head_page_idx none)
      = totalOf rb pages - l.length ∧
    QInv P { rb with head_page_idx := wrapInc rb.head_page_idx }
      { mw with first_message_idx := wrapAdd mw.first_message_idx l.length }
      (updateFn pages rb.head_page_idx none) := by
  have hh := hInv.head_lt
  have ht := hInv.tail_lt
  have h2 := wordSize_ge_two
  have hszlt := rb.size_lt
  have hpop1 : rb.pop_front.1 = { rb with head_page_idx := wrapInc rb.head_page_idx } := by
    rw [RingBufferState.pop_front_of_pos hh ht hpos]
  have hsize2 : ({ rb with head_page_idx := wrapInc rb.head_page_idx } :
      RingBufferState).size = rb.size - 1 := by
    show wrapSub rb.tail_page_idx (wrapInc rb.head_page_idx) = rb.size - 1
    exact wrapSub_wrapInc_right ht hh hpos
  have htl : rb.toList = rb.head_page_idx ::
      ({ rb with head_page_idx := wrapInc rb.head_page_idx } :
        RingBufferState).toList := by
    rw [RingBufferState.toList_pop hh ht hpos, hpop1]
  have hheadnm : rb.head_page_idx ∉
      ({ rb with head_page_idx := wrapInc rb.head_page_idx } :
        RingBufferState).toList := by
    have hnd := RingBufferState.toList_nodup hh ht
    rw [htl] at hnd
    exact (List.nodup_cons.mp hnd).1
  have hTdec : totalOf rb pages = l.length +
      totalOf { rb with head_page_idx := wrapInc rb.head_page_idx } pages := by
    unfold totalOf
    rw [htl]
    simp [hl]
  have hT2 : totalOf { rb with head_page_idx := wrapInc rb.head_page_idx }
      (updateFn pages rb.head_page_idx none)
      = totalOf { rb with head_page_idx := wrapInc rb.head_page_idx } pages :=
    totalOf_update_not_mem hheadnm
  have hnsize : l.length ≤ mw.size := by
    rw [← hInv.sync]
    omega
  refine ⟨by omega, ?_⟩
  refine ⟨wrapInc_lt _, ht, wrapAdd_lt _ _, hInv.free_lt, ?_, ?_, ?_, ?_, ?_⟩
  · intro q
    show updateFn pages rb.head_page_idx none q ≠ none ↔
      q < wordSize ∧ wrapSub q (wrapInc rb.head_page_idx) < RingBufferState.size _
    rw [hsize2]
    rcases eq_or_ne q rb.head_page_idx with hq | hq
    · rw [hq, updateFn_same]
      simp only [ne_eq, not_true_eq_false, false_iff, not_and, not_lt]
      intro _
      rw [wrapSub_wrapInc_self hh]
      omega
    · rw [updateFn_other _ _ _ hq, hInv.dom q]
      by_cases hqlt : q < wordSize
      · have hqpos : 1 ≤ wrapSub q rb.head_page_idx := by
          have := (wrapSub_eq_zero_iff hqlt hh).not.mpr hq
          omega
        have hshift : wrapSub q (wrapInc rb.head_page_idx)
            = wrapSub q rb.head_page_idx - 1 :=
          wrapSub_wrapAdd_right hqlt hh hqpos
        rw [hshift]
        constructor
        · rintro ⟨-, hd⟩
          exact ⟨hqlt, by omega⟩
        · rintro ⟨-, hd⟩
          exact ⟨hqlt, by omega⟩
      · constructor
        · rintro ⟨hc, -⟩
          omega
        · rintro ⟨hc, -⟩
          omega
  · intro q lq hlq
    rcases eq_or_ne q rb.head_page_idx with hq | hq
    · rw [hq, updateFn_same] at hlq
      cases hlq
    · rw [updateFn_other _ _ _ hq] at hlq
      exact hInv.nonempty q lq hlq
  · intro q lq hlq
    rcases eq_or_ne q rb.head_page_idx with hq | hq
    · rw [hq, updateFn_same] at hlq
      cases hlq
    · rw [updateFn_other _ _ _ hq] at hlq
      exact hInv.bounded q lq hlq
  · rw [hT2, MessageWindowState.size_prune hInv.first_lt hInv.free_lt hnsize,
      ← hInv.sync]
    omega
  · rw [hT2]
    have := hInv.total_lt
    omega

/-- Splitting the head page in place (branch two of the prune loop) preserves
the storage invariant and removes exactly `k` messages from the total. -/
theorem QInv.split_page {P : Nat} {rb : RingBufferState} {mw : MessageWindowState}
    {pages : Nat → Option (List InboundDownwardMessage)} {l : List InboundDownwardMessage}
    {k : Nat} (hInv : QInv P rb mw pages) (hpos : 0 < rb.size)
    (hl : pages rb.head_page_idx = some l) (hkn : k < l.length) :
    totalOf rb (updateFn pages rb.head_page_idx (some (l.drop k)))
      = totalOf rb pages - k ∧
    QInv P rb { mw with first_message_idx := wrapAdd mw.first_message_idx k }
      (updateFn pages rb.head_page_idx (some (l.drop k))) := by
  have hh := hInv.head_lt
  have ht := hInv.tail_lt
  have hmem := RingBufferState.head_mem_toList hh ht hpos
  have hnodup := RingBufferState.toList_nodup hh ht
  have hsum := sum_lengths_update hnodup hmem pages (some (l.drop k))
  rw [hl] at hsum
  simp only [Option.getD_some, List.length_drop] at hsum
  have hnT : l.length ≤ totalOf rb pages := by
    have hle : l.length ≤ (rb.toList.map (fun q => ((pages q).getD []).length)).sum := by
      refine List.single_le_sum (fun x _ => Nat.zero_le x) _ ?_
      rw [List.mem_map]
      exact ⟨rb.head_page_idx, hmem, by simp [hl]⟩
    unfold totalOf
    omega
  have hksize : k ≤ mw.size := by
    rw [← hInv.sync]
    omega
  have htot : totalOf rb (updateFn pages rb.head_page_idx (some (l.drop k)))
      = totalOf rb pages - k := by
    unfold totalOf
    omega
  refine ⟨htot, ?_⟩
  refine ⟨hh, ht, wrapAdd_lt _ _, hInv.free_lt, ?_, ?_, ?_, ?_, ?_⟩
  · intro q
    rcases eq_or_ne q rb.head_page_idx with hq | hq
    · rw [hq, updateFn_same]
      simp only [ne_eq, reduceCtorEq, not_false_eq_true, true_iff]
      refine ⟨hh, ?_⟩
      rw [wrapSub_spec hh hh, if_pos (le_refl _)]
      omega
    · rw [updateFn_other _ _ _ hq]
      exact hInv.dom q
  · intro q lq hlq
    rcases eq_or_ne q rb.head_page_idx with hq | hq
    · rw [hq, updateFn_same] at hlq
      simp only [Option.some.injEq] at hlq
      rw [← hlq]
      intro hcontra
      have := congrArg List.length hcontra
      rw [List.length_drop] at this
      simp at this
      omega
    · rw [updateFn_other _ _ _ hq] at hlq
      exact hInv.nonempty q lq hlq
  · intro q lq hlq
    rcases eq_or_ne q rb.head_page_idx with hq | hq
    · rw [hq, updateFn_same] at hlq
      simp only [Option.some.injEq] at hlq
      rw [← hlq, List.length_drop]
      have := hInv.bounded _ _ hl
      omega
    · rw [updateFn_other _ _ _ hq] at hlq
      exact hInv.bounded q lq hlq
  · rw [htot, MessageWindowState.size_prune hInv.first_lt hInv.free_lt hksize,
      ← hInv.sync]
  · rw [htot]
    have := hInv.total_lt
    omega

theorem totalOf_empty {rb : RingBufferState}
    {pages : Nat → Option (List InboundDownwardMessage)} (hsz : rb.size = 0) :
    totalOf rb pages = 0 := by
  unfold totalOf RingBufferState.toList
  rw [hsz]
  rfl

/-- Full characterization of the `prune_dmq` page-walking loop, by induction
on the fuel (the ring size at entry): the storage invariant is preserved, the
number of pruned messages is exactly `min(messages_to_prune, total)`, the
first-message index advances by that amount, the free index and the tail are
untouched, and the stored total decreases by that amount. -/
theorem pruneLoop_spec {P : Nat} : ∀ (fuel : Nat) (s : PruneLoopState),
    QInv P s.rb s.mw s.pages → s.rb.size ≤ fuel →
    QInv P (pruneLoop P fuel s).rb (pruneLoop P fuel s).mw (pruneLoop P fuel s).pages ∧
    (pruneLoop P fuel s).pruned_message_count
      = s.pruned_message_count + min s.messages_to_prune (totalOf s.rb s.pages) ∧
    (pruneLoop P fuel s).mw.first_message_idx
      = wrapAdd s.mw.first_message_idx
          (min s.messages_to_prune (totalOf s.rb s.pages)) ∧
    (pruneLoop P fuel s).mw.free_message_idx = s.mw.free_message_idx ∧
    (pruneLoop P fuel s).rb.tail_page_idx = s.rb.tail_page_idx ∧
    totalOf (pruneLoop P fuel s).rb (pruneLoop P fuel s).pages
      = totalOf s.rb s.pages - min s.messages_to_prune (totalOf s.rb s.pages) := by
  intro fuel
  induction fuel with
  | zero =>
    intro s hInv hfuel
    have hsz : s.rb.size = 0 := Nat.le_zero.mp hfuel
    have hT : totalOf s.rb s.pages = 0 := totalOf_empty hsz
    have hloop : pruneLoop P 0 s = s := rfl
    rw [hloop, hT]
    refine ⟨hInv, by omega, ?_, rfl, rfl, by omega⟩
    rw [Nat.min_zero, wrapAdd_zero hInv.first_lt]
  | succ fuel ih =>
    intro s hInv hfuel
    have hh := hInv.head_lt
    have ht := hInv.tail_lt
    by_cases h0 : s.messages_to_prune = 0
    · have hloop : pruneLoop P (fuel + 1) s = s := by
        conv_lhs => rw [pruneLoop]
        rw [if_pos h0]
      rw [hloop, h0]
      simp only [Nat.zero_min]
      exact ⟨hInv, by omega, (wrapAdd_zero hInv.first_lt).symm, trivial, trivial, by omega⟩
    · by_cases hsz0 : s.rb.size = 0
      · have hfront : s.rb.front = none := RingBufferState.front_eq_none hh ht hsz0
        have hT : totalOf s.rb s.pages = 0 := totalOf_empty hsz0
        have hloop : pruneLoop P (fuel + 1) s = s := by
          conv_lhs => rw [pruneLoop]
          rw [if_neg h0, hfront]
        rw [hloop, hT]
        refine ⟨hInv, by omega, ?_, rfl, rfl, by omega⟩
        rw [Nat.min_zero, wrapAdd_zero hInv.first_lt]
      · have hpos : 0 < s.rb.size := by omega
        have hfront : s.rb.front = some s.rb.head_page_idx :=
          RingBufferState.front_eq_some hh ht hpos
        obtain ⟨l, hl, hlne, hlP⟩ := hInv.head_page hpos
        have hmem := RingBufferState.head_mem_toList hh ht hpos
        have hle : l.length ≤ totalOf s.rb s.pages := by
          have h1 : l.length ≤
              (s.rb.toList.map (fun q => ((s.pages q).getD []).length)).sum := by
            refine List.single_le_sum (fun x _ => Nat.zero_le x) _ ?_
            rw [List.mem_map]
            exact ⟨s.rb.head_page_idx, hmem, by simp [hl]⟩
          unfold totalOf
          exact h1
        by_cases hbr : l.length ≤ s.messages_to_prune
        · have hpop1 : s.rb.pop_front.1 =
              ({ s.rb with head_page_idx := wrapInc s.rb.head_page_idx } :
                RingBufferState) := by
            rw [RingBufferState.pop_front_of_pos hh ht hpos]
          have hmsz : l.length ≤ s.mw.size := by
            rw [← hInv.sync]
            exact hle
          have hprune1 : (s.mw.prune l.length).1 =
              ({ s.mw with first_message_idx := wrapAdd s.mw.first_message_idx l.length } : MessageWindowState) :=
            MessageWindowState.prune_fst hmsz
          have hstep : pruneLoop P (fuel + 1) s = pruneLoop P fuel
              ⟨{ s.rb with head_page_idx := wrapInc s.rb.head_page_idx },
               { s.mw with first_message_idx := wrapAdd s.mw.first_message_idx l.length },
               updateFn s.pages s.rb.head_page_idx none,
               s.messages_to_prune - l.length,
               s.pruned_message_count + l.length⟩ := by
            conv_lhs => rw [pruneLoop]
            rw [if_neg h0, hfront]
            dsimp only
            rw [hl]
            simp only [Option.getD_some]
            rw [if_pos hbr, hpop1, hprune1]
          obtain ⟨htotA, hInvA⟩ := hInv.drop_page hpos hl
          have hsizeA : ({ s.rb with head_page_idx := wrapInc s.rb.head_page_idx } :
              RingBufferState).size = s.rb.size - 1 := by
            show wrapSub s.rb.tail_page_idx (wrapInc s.rb.head_page_idx)
              = s.rb.size - 1
            exact wrapSub_wrapInc_right ht hh hpos
          have hfuelA : ({ s.rb with head_page_idx := wrapInc s.rb.head_page_idx } :
              RingBufferState).size ≤ fuel := by
            rw [hsizeA]
            omega
          have hIH := ih
            ⟨{ s.rb with head_page_idx := wrapInc s.rb.head_page_idx },
             { s.mw with first_message_idx := wrapAdd s.mw.first_message_idx l.length },
             updateFn s.pages s.rb.head_page_idx none,
             s.messages_to_prune - l.length,
             s.pruned_message_count + l.length⟩ hInvA hfuelA
          obtain ⟨hI1, hI2, hI3, hI4, hI5, hI6⟩ := hIH
          dsimp only at hI2 hI3 hI4 hI5 hI6
          rw [htotA] at hI2 hI3 hI6
          rw [hstep]
          refine ⟨hI1, ?_, ?_, hI4, hI5, ?_⟩
          · rw [hI2]
            omega
          · rw [hI3, wrapAdd_wrapAdd]
            have harith : l.length + min (s.messages_to_prune - l.length)
                (totalOf s.rb s.pages - l.length)
                = min s.messages_to_prune (totalOf s.rb s.pages) := by
              omega
            rw [harith]
          · rw [hI6]
            omega
        · have hm_lt : s.messages_to_prune < l.length := by omega
          have hmsz : s.messages_to_prune ≤ s.mw.size := by
            rw [← hInv.sync]
            omega
          have hprune1 : (s.mw.prune s.messages_to_prune).1 =
              ({ s.mw with first_message_idx := wrapAdd s.mw.first_message_idx s.messages_to_prune } : MessageWindowState) :=
            MessageWindowState.prune_fst hmsz
          have hstep : pruneLoop P (fuel + 1) s =
              ⟨s.rb,
               { s.mw with first_message_idx := wrapAdd s.mw.first_message_idx s.messages_to_prune },
               updateFn s.pages s.rb.head_page_idx
                 (some (l.drop s.messages_to_prune)),
               0,
               s.pruned_message_count + s.messages_to_prune⟩ := by
            conv_lhs => rw [pruneLoop]
            rw [if_neg h0, hfront]
            dsimp only
            rw [hl]
            simp only [Option.getD_some]
            rw [if_neg hbr, hprune1]
          obtain ⟨htotB, hInvB⟩ := hInv.split_page hpos hl hm_lt
          have hminB : min s.messages_to_prune (totalOf s.rb s.pages)
              = s.messages_to_prune := by
            omega
          rw [hstep]
          refine ⟨hInvB, ?_, ?_, rfl, rfl, ?_⟩
          · rw [hminB]
          · rw [hminB]
          · dsimp only
            rw [htotB, hminB]

theorem prune_dmq_noop_of_empty {P : Nat} {st : ChannelState} {k : Nat}
    (hq : st.queue.message_window_state.size = 0) : prune_dmq P st k = st := by
  unfold prune_dmq
  dsimp only
  rw [if_pos hq]

theorem prune_dmq_noop_of_zero {P : Nat} {st : ChannelState} {k : Nat}
    (hk : k = 0) : prune_dmq P st k = st := by
  unfold prune_dmq
  dsimp only
  by_cases hq : st.queue.message_window_state.size = 0
  · rw [if_pos hq]
  · rw [if_neg hq, if_pos hk]

/-- Characterization of `prune_dmq` past its two early-return guards: the
storage invariant is preserved, exactly `min(k, total)` messages are removed,
the window's first index advances by that amount while the free index and the
ring tail stay put, the global MQC head is untouched, and the per-message MQC
heads are removed at exactly the `min(k, total)` indices starting at the old
first index. -/
theorem prune_dmq_char {P : Nat} {st : ChannelState} {k : Nat}
    (hInv : ChannelInv P st) (hq : st.queue.message_window_state.size ≠ 0)
    (hk : k ≠ 0) :
    ChannelInv P (prune_dmq P st k) ∧
    (prune_dmq P st k).totalMessages
      = st.totalMessages - min k st.totalMessages ∧
    (prune_dmq P st k).queue.message_window_state.first_message_idx
      = wrapAdd st.queue.message_window_state.first_message_idx
          (min k st.totalMessages) ∧
    (prune_dmq P st k).queue.message_window_state.free_message_idx
      = st.queue.message_window_state.free_message_idx ∧
    (prune_dmq P st k).queue.ring_buffer_state.tail_page_idx
      = st.queue.ring_buffer_state.tail_page_idx ∧
    (prune_dmq P st k).mqcHead = st.mqcHead ∧
    ∀ i, (prune_dmq P st k).mqcById i
      = if i ∈ (List.range (min k st.totalMessages)).map
            (fun j => wrapAdd st.queue.message_window_state.first_message_idx j)
          then none else st.mqcById i := by
  obtain ⟨hI1, hI2, hI3, hI4, hI5, hI6⟩ := pruneLoop_spec (P := P)
    st.queue.ring_buffer_state.size
    ⟨st.queue.ring_buffer_state, st.queue.message_window_state, st.pages, k, 0⟩
    hInv (le_refl _)
  dsimp only at hI1 hI2 hI3 hI4 hI5 hI6
  have hTlt : totalOf st.queue.ring_buffer_state st.pages < wordSize :=
    hInv.total_lt
  have hmod : (0 + min k (totalOf st.queue.ring_buffer_state st.pages)) % wordSize
      = min k (totalOf st.queue.ring_buffer_state st.pages) := by
    rw [Nat.zero_add]
    refine Nat.mod_eq_of_lt ?_
    have hmin : min k (totalOf st.queue.ring_buffer_state st.pages)
        ≤ totalOf st.queue.ring_buffer_state st.pages := Nat.min_le_right _ _
    omega
  unfold prune_dmq
  dsimp only
  rw [if_neg hq, if_neg hk]
  refine ⟨hI1, ?_, ?_, hI4, hI5, rfl, ?_⟩
  · show totalOf _ _ = totalOf st.queue.ring_buffer_state st.pages
      - min k (totalOf st.queue.ring_buffer_state st.pages)
    exact hI6
  · rw [hI3]
    have h1 : 0 + min k (totalOf st.queue.ring_buffer_state st.pages)
        = min k (totalOf st.queue.ring_buffer_state st.pages) := by omega
    rw [show min k (ChannelState.totalMessages st)
        = min k (totalOf st.queue.ring_buffer_state st.pages) from rfl]
  · intro i
    dsimp only
    rw [hI2, hmod]
    rfl

/-- `prune_dmq` preserves the storage invariant unconditionally. -/
theorem prune_dmq_preserves_inv {P : Nat} {st : ChannelState} {k : Nat}
    (hInv : ChannelInv P st) : ChannelInv P (prune_dmq P st k) := by
  by_cases hq : st.queue.message_window_state.size = 0
  · rw [prune_dmq_noop_of_empty hq]
    exact hInv
  · by_cases hk : k = 0
    · rw [prune_dmq_noop_of_zero hk]
      exact hInv
    · exact (prune_dmq_char hInv hq hk).1

/-- The never-written channel satisfies the storage invariant. -/
theorem emptyChannel_inv (P : Nat) : ChannelInv P emptyChannel := by
  have hW := wordSize_pos
  have h00 : wrapSub 0 0 = 0 := by
    unfold wrapSub
    simp
  have hsz : emptyChannel.queue.ring_buffer_state.size = 0 := h00
  have hmw : emptyChannel.queue.message_window_state.size = 0 := h00
  refine ⟨hW, hW, hW, hW, ?_, ?_, ?_, ?_, ?_⟩
  · intro p
    constructor
    · intro h
      exact absurd rfl h
    · rintro ⟨-, h⟩
      rw [hsz] at h
      omega
  · intro p l hl
    cases hl
  · intro p l hl
    cases hl
  · rw [totalOf_empty hsz, hmw]
  · rw [totalOf_empty hsz]
    exact hW

/-- Every safely reachable channel state satisfies the storage invariant. -/
theorem SafeReachable.inv {P : Nat} {st : ChannelState}
    (h : SafeReachable P st) : ChannelInv P st := by
  induction h with
  | init => exact emptyChannel_inv P
  | enq hre henq hlt ih =>
    exact (queue_downward_message_preserves_inv ih henq).2.2 hlt
  | prune hre hk ih => exact prune_dmq_preserves_inv ih

/-! ### Runs of single-message enqueues -/

/-- A run of `n` successful single-message `queue_downward_message` calls on
one channel starting from the default state, with arbitrary messages and
block numbers. -/
inductive EnqSeq (P : Nat) (config : HostConfiguration) : Nat → ChannelState → Prop where
  | zero : EnqSeq P config 0 emptyChannel
  | succ {n : Nat} {st st' : ChannelState} {blockNumber : Nat} {msg : DownwardMessage} :
      EnqSeq P config n st →
      queue_downward_message P config st blockNumber msg = some (.ok st') →
      EnqSeq P config (n + 1) st'

/-- The closed-form shape of the queue after `N` single-message enqueues from
the default state: indices grew from `0`, the ring tail sits at `⌈N/P⌉`, the
total is `N`, pages hold at most `P` messages each, the last used page holds
`(N-1) % P + 1` of them, and pages at the tail and beyond are unallocated. -/
structure StInv (P N : Nat) (st : ChannelState) : Prop where
  first_eq : st.queue.message_window_state.first_message_idx = 0
  free_eq : st.queue.message_window_state.free_message_idx = N
  head_eq : st.queue.ring_buffer_state.head_page_idx = 0
  tail_eq : st.queue.ring_buffer_state.tail_page_idx = (N + P - 1) / P
  total_eq : st.totalMessages = N
  bounded : ∀ p l, st.pages p = some l → l.length ≤ P
  last_page : 0 < N →
    ∃ l, st.pages ((N + P - 1) / P - 1) = some l ∧ l.length = (N - 1) % P + 1
  fresh : ∀ p, (N + P - 1) / P ≤ p → st.pages p = none

theorem divmod_of_eq {P a q r : Nat} (hP : 0 < P) (hr : r < P) (ha : a = P * q + r) :
    a / P = q ∧ a % P = r := by
  constructor
  · rw [ha, Nat.mul_add_div hP, Nat.div_eq_of_lt hr, Nat.add_zero]
  · rw [ha, Nat.mul_add_mod, Nat.mod_eq_of_lt hr]

theorem emptyChannel_stinv (P : Nat) (hP : 1 ≤ P) : StInv P 0 emptyChannel := by
  have hc : (0 + P - 1) / P = 0 := (divmod_of_eq (q := 0) (r := P - 1) hP (by omega) (by omega)).1
  refine ⟨rfl, rfl, rfl, ?_, ?_, ?_, ?_, ?_⟩
  · show (0 : Nat) = (0 + P - 1) / P
    rw [hc]
  · show totalOf emptyChannel.queue.ring_buffer_state emptyChannel.pages = 0
    refine totalOf_empty ?_
    show wrapSub 0 0 = 0
    unfold wrapSub
    simp
  · intro p l hl
    cases hl
  · intro hpos
    exact absurd hpos (lt_irrefl 0)
  · intro p hp
    rfl


/-- One more successful enqueue advances the closed-form shape from `N` to
`N + 1`, and the message is placed by the tail-page-if-room rule: it is
appended to the last used page when that page holds fewer than `P` messages,
and otherwise (ring empty or tail page full) it becomes the sole entry of a
freshly allocated page. -/
theorem StInv.step {P N : Nat} {config : HostConfiguration} {st st' : ChannelState}
    {b : Nat} {m : DownwardMessage}
    (hS : StInv P N st) (hP : 1 ≤ P) (hN : N + 1 < wordSize)
    (h : queue_downward_message P config st b m = some (.ok st')) :
    StInv P (N + 1) st' ∧
    ((0 < st.ringSize ∧
      ∃ t l, st.queue.ring_buffer_state.last_used = some t ∧ st.pages t = some l ∧
        l.length < P ∧ st'.queue.ring_buffer_state = st.queue.ring_buffer_state ∧
        st'.pages t = some (l ++ [⟨m, b⟩])) ∨
     ((st.ringSize = 0 ∨
       ∃ t l, st.queue.ring_buffer_state.last_used = some t ∧ st.pages t = some l ∧
         l.length = P) ∧
      st'.ringSize = st.ringSize + 1 ∧
      st'.pages st.queue.ring_buffer_state.tail_page_idx = some [⟨m, b⟩])) := by
  have hW := wordSize_pos
  have h2 := wordSize_ge_two
  have hP0 : 0 < P := hP
  have hA0 : (0 + P - 1) / P = 0 :=
    (divmod_of_eq (q := 0) (r := P - 1) hP0 (by omega) (by omega)).1
  have hfl : st.queue.message_window_state.first_message_idx < wordSize := by
    rw [hS.first_eq]
    exact hW
  have hfr : st.queue.message_window_state.free_message_idx < wordSize := by
    rw [hS.free_eq]
    omega
  have hhl : st.queue.ring_buffer_state.head_page_idx < wordSize := by
    rw [hS.head_eq]
    exact hW
  have hceil_le : (N + P - 1) / P ≤ N := by
    rcases Nat.eq_zero_or_pos N with h0 | h0
    · rw [h0, hA0]
    · obtain ⟨q, r, hrP, hqr⟩ : ∃ q r, r < P ∧ N - 1 = P * q + r :=
        ⟨(N - 1) / P, (N - 1) % P, Nat.mod_lt _ hP0, (Nat.div_add_mod (N - 1) P).symm⟩
      have hms1 : P * (q + 1) = P * q + P := Nat.mul_succ P q
      have hc1 : (N + P - 1) / P = q + 1 :=
        (divmod_of_eq (q := q + 1) (r := r) hP0 hrP (by omega)).1
      have hqle : q ≤ P * q := Nat.le_mul_of_pos_left q hP0
      rw [hc1]
      omega
  have htl : st.queue.ring_buffer_state.tail_page_idx < wordSize := by
    rw [hS.tail_eq]
    omega
  have hsz : st.queue.ring_buffer_state.size = (N + P - 1) / P := by
    show wrapSub st.queue.ring_buffer_state.tail_page_idx
      st.queue.ring_buffer_state.head_page_idx = (N + P - 1) / P
    rw [hS.head_eq, hS.tail_eq, wrapSub_zero (by omega)]
  have hTeq : totalOf st.queue.ring_buffer_state st.pages = N := hS.total_eq
  obtain ⟨hmsg, mwx, newIdx, rb1, pidx, hext, halloc, hbranch⟩ :=
    queue_downward_message_ok_cases h
  rw [MessageWindowState.extend_one _ hfl hfr] at hext
  simp only [Option.some.injEq, Prod.mk.injEq] at hext
  obtain ⟨hmwx, hnewIdx⟩ := hext
  subst hmwx hnewIdx
  rcases allocTailPage_cases hhl htl halloc with
    ⟨hpos, hrb1, hpidx⟩ | ⟨h0, hne, hrb1, hpidx⟩
  · -- ring non-empty: the candidate page is the last used one
    have hNpos : 0 < N := by
      by_contra hc
      have hN0 : N = 0 := by omega
      rw [hN0, hA0] at hsz
      omega
    obtain ⟨q, r, hrP, hqr⟩ : ∃ q r, r < P ∧ N - 1 = P * q + r :=
      ⟨(N - 1) / P, (N - 1) % P, Nat.mod_lt _ hP0, (Nat.div_add_mod (N - 1) P).symm⟩
    have hms1 : P * (q + 1) = P * q + P := Nat.mul_succ P q
    have hqle : q ≤ P * q := Nat.le_mul_of_pos_left q hP0
    have hqN : q + 1 ≤ N := by omega
    have hc1 : (N + P - 1) / P = q + 1 :=
      (divmod_of_eq (q := q + 1) (r := r) hP0 hrP (by omega)).1
    have hmodm1 : (N - 1) % P = r := (divmod_of_eq hP0 hrP hqr).2
    have hpidx' : pidx = q := by
      rw [hpidx, hS.tail_eq, hc1, wrapDec_eq (by omega), if_pos (by omega),
        Nat.add_sub_cancel]
    have hlast : st.queue.ring_buffer_state.last_used = some q := by
      rw [RingBufferState.last_used_eq hhl htl hpos, hS.tail_eq, hc1,
        wrapDec_eq (by omega), if_pos (by omega), Nat.add_sub_cancel]
    obtain ⟨l, hlpage, hllen⟩ := hS.last_page hNpos
    rw [hc1, Nat.add_sub_cancel] at hlpage
    rw [hmodm1] at hllen
    rw [hrb1, hpidx'] at hbranch
    rw [hlpage] at hbranch
    simp only [Option.getD_some] at hbranch
    rcases hbranch with ⟨hroom, hst'⟩ | ⟨hfull, hcap, rb2, pidx2, hext2, hst'⟩
    · -- the tail page has room: push
      have hrlt : r + 1 < P := by omega
      have hcN1 : (N + 1 + P - 1) / P = q + 1 :=
        (divmod_of_eq (q := q + 1) (r := r + 1) hP0 (by omega) (by omega)).1
      have hmodN : N % P = r + 1 :=
        (divmod_of_eq (q := q) (r := r + 1) hP0 (by omega) (by omega)).2
      have hmem : q ∈ st.queue.ring_buffer_state.toList := by
        have hmem0 := RingBufferState.last_used_mem_toList hhl htl hpos
        rwa [hS.tail_eq, hc1, wrapDec_eq (by omega), if_pos (by omega),
          Nat.add_sub_cancel] at hmem0
      have hsum := sum_lengths_update (RingBufferState.toList_nodup hhl htl) hmem
        st.pages (some (l ++ [(⟨m, b⟩ : InboundDownwardMessage)]))
      rw [hlpage] at hsum
      simp only [Option.getD_some, List.length_append, List.length_cons,
        List.length_nil] at hsum
      rw [hst']
      refine ⟨⟨hS.first_eq, ?_, hS.head_eq, ?_, ?_, ?_, ?_, ?_⟩, ?_⟩
      · show wrapAdd st.queue.message_window_state.free_message_idx 1 = N + 1
        rw [hS.free_eq, wrapAdd_small (by omega)]
      · show st.queue.ring_buffer_state.tail_page_idx = (N + 1 + P - 1) / P
        rw [hS.tail_eq, hc1, hcN1]
      · show totalOf st.queue.ring_buffer_state
            (updateFn st.pages q
              (some (l ++ [(⟨m, b⟩ : InboundDownwardMessage)]))) = N + 1
        unfold totalOf at hTeq ⊢
        omega
      · intro p lp hlp
        dsimp only at hlp
        rcases eq_or_ne p q with hpq | hpq
        · rw [hpq, updateFn_same] at hlp
          simp only [Option.some.injEq] at hlp
          rw [← hlp]
          simp only [List.length_append, List.length_cons, List.length_nil]
          omega
        · rw [updateFn_other _ _ _ hpq] at hlp
          exact hS.bounded p lp hlp
      · intro hpos1
        refine ⟨l ++ [⟨m, b⟩], ?_, ?_⟩
        · dsimp only
          rw [hcN1, Nat.add_sub_cancel]
          exact updateFn_same _ _ _
        · simp only [List.length_append, List.length_cons, List.length_nil,
            Nat.add_sub_cancel]
          rw [hmodN]
          omega
      · intro p hp
        dsimp only
        rw [hcN1] at hp
        rw [updateFn_other _ _ _ (by omega), hS.fresh p (by rw [hc1]; omega)]
      · left
        refine ⟨hpos, q, l, hlast, hlpage, hroom, rfl, ?_⟩
        dsimp only
        exact updateFn_same _ _ _
    · -- the tail page is full: a fresh page is allocated at the tail index
      have hlP : l.length ≤ P := hS.bounded _ _ hlpage
      have hreq : r + 1 = P := by omega
      have hms2 : P * (q + 2) = P * (q + 1) + P := Nat.mul_succ P (q + 1)
      have hcN1 : (N + 1 + P - 1) / P = q + 2 :=
        (divmod_of_eq (q := q + 2) (r := 0) hP0 hP0 (by omega)).1
      have hmodN : N % P = 0 :=
        (divmod_of_eq (q := q + 1) (r := 0) hP0 hP0 (by omega)).2
      have hne2 : wrapInc st.queue.ring_buffer_state.tail_page_idx
          ≠ st.queue.ring_buffer_state.head_page_idx := by
        rw [hS.tail_eq, hS.head_eq, hc1, wrapInc_eq (by omega), if_pos (by omega)]
        omega
      rw [RingBufferState.extend_eq htl hne2] at hext2
      simp only [Option.some.injEq, Prod.mk.injEq] at hext2
      obtain ⟨hrb2, hpidx2⟩ := hext2
      rw [← hrb2, ← hpidx2] at hst'
      have htot := @totalOf_newpage st.queue.ring_buffer_state st.pages hhl htl
        hne2 (⟨m, b⟩ : InboundDownwardMessage)
      rw [hst']
      refine ⟨⟨hS.first_eq, ?_, hS.head_eq, ?_, ?_, ?_, ?_, ?_⟩, ?_⟩
      · show wrapAdd st.queue.message_window_state.free_message_idx 1 = N + 1
        rw [hS.free_eq, wrapAdd_small (by omega)]
      · show wrapInc st.queue.ring_buffer_state.tail_page_idx = (N + 1 + P - 1) / P
        rw [hS.tail_eq, hc1, hcN1, wrapInc_eq (by omega), if_pos (by omega)]
      · show totalOf _ _ = N + 1
        rw [htot, hTeq]
      · intro p lp hlp
        dsimp only at hlp
        rcases eq_or_ne p st.queue.ring_buffer_state.tail_page_idx with hpq | hpq
        · rw [hpq, updateFn_same] at hlp
          simp only [Option.some.injEq] at hlp
          rw [← hlp]
          simpa using hP
        · rw [updateFn_other _ _ _ hpq] at hlp
          exact hS.bounded p lp hlp
      · intro hpos1
        refine ⟨[⟨m, b⟩], ?_, ?_⟩
        · dsimp only
          rw [hcN1, show q + 2 - 1 = q + 1 from rfl, ← hc1, ← hS.tail_eq]
          exact updateFn_same _ _ _
        · simp only [List.length_cons, List.length_nil, Nat.add_sub_cancel]
          rw [hmodN]
      · intro p hp
        dsimp only
        rw [hcN1] at hp
        have hpq : p ≠ st.queue.ring_buffer_state.tail_page_idx := by
          rw [hS.tail_eq, hc1]
          omega
        rw [updateFn_other _ _ _ hpq, hS.fresh p (by rw [hc1]; omega)]
      · right
        refine ⟨Or.inr ⟨q, l, hlast, hlpage, by omega⟩, ?_, ?_⟩
        · show RingBufferState.size _ = st.queue.ring_buffer_state.size + 1
          exact RingBufferState.size_tail_inc hhl htl hne2
        · dsimp only
          exact updateFn_same _ _ _
  · -- ring empty: this is the very first enqueue, `N = 0`
    have hN0 : N = 0 := by
      by_contra hc
      have hNpos : 0 < N := by omega
      obtain ⟨q, r, hrP, hqr⟩ : ∃ q r, r < P ∧ N - 1 = P * q + r :=
        ⟨(N - 1) / P, (N - 1) % P, Nat.mod_lt _ hP0, (Nat.div_add_mod (N - 1) P).symm⟩
      have hms1 : P * (q + 1) = P * q + P := Nat.mul_succ P q
      have hc1 : (N + P - 1) / P = q + 1 :=
        (divmod_of_eq (q := q + 1) (r := r) hP0 hrP (by omega)).1
      rw [hc1] at hsz
      omega
    subst hN0
    have hfreshpg : st.pages st.queue.ring_buffer_state.tail_page_idx = none := by
      refine hS.fresh _ ?_
      rw [hS.tail_eq]
    rw [hrb1, hpidx] at hbranch
    rw [hfreshpg] at hbranch
    simp only [Option.getD_none, List.length_nil, List.nil_append] at hbranch
    rcases hbranch with ⟨hroom, hst'⟩ | ⟨hfull, hcap, rb2, pidx2, hext2, hst'⟩
    · have htot := @totalOf_newpage st.queue.ring_buffer_state st.pages hhl htl
        hne (⟨m, b⟩ : InboundDownwardMessage)
      have hdiv1 : (0 + 1 + P - 1) / P = 1 :=
        (divmod_of_eq (q := 1) (r := 0) hP0 hP0 (by omega)).1
      rw [hst']
      refine ⟨⟨hS.first_eq, ?_, hS.head_eq, ?_, ?_, ?_, ?_, ?_⟩, ?_⟩
      · show wrapAdd st.queue.message_window_state.free_message_idx 1 = 0 + 1
        rw [hS.free_eq, wrapAdd_small (by omega)]
      · show wrapInc st.queue.ring_buffer_state.tail_page_idx = (0 + 1 + P - 1) / P
        rw [hS.tail_eq, hA0, wrapInc_eq (by omega), if_pos (by omega), hdiv1]
      · show totalOf _ _ = 0 + 1
        rw [htot, hTeq]
      · intro p lp hlp
        dsimp only at hlp
        rcases eq_or_ne p st.queue.ring_buffer_state.tail_page_idx with hpq | hpq
        · rw [hpq, updateFn_same] at hlp
          simp only [Option.some.injEq] at hlp
          rw [← hlp]
          simpa using hP
        · rw [updateFn_other _ _ _ hpq] at hlp
          exact hS.bounded p lp hlp
      · intro hpos1
        refine ⟨[⟨m, b⟩], ?_, ?_⟩
        · dsimp only
          rw [hdiv1, show (1 : Nat) - 1 = 0 from rfl, ← hA0, ← hS.tail_eq]
          exact updateFn_same _ _ _
        · simp only [List.length_cons, List.length_nil, Nat.add_sub_cancel,
            Nat.zero_mod]
      · intro p hp
        dsimp only
        rw [hdiv1] at hp
        have hpq : p ≠ st.queue.ring_buffer_state.tail_page_idx := by
          rw [hS.tail_eq, hA0]
          omega
        rw [updateFn_other _ _ _ hpq, hS.fresh p (by rw [hA0]; omega)]
      · right
        refine ⟨Or.inl h0, ?_, ?_⟩
        · show RingBufferState.size _ = st.queue.ring_buffer_state.size + 1
          exact RingBufferState.size_tail_inc hhl htl hne
        · dsimp only
          exact updateFn_same _ _ _
    · exact absurd hcap (by omega)

/-- After any run of successful single-message enqueues whose count stays
below the index-space size, the closed-form queue shape holds. -/
theorem EnqSeq.stInv {P N : Nat} {config : HostConfiguration} {st : ChannelState}
    (h : EnqSeq P config N st) (hP : 1 ≤ P) (hN : N < wordSize) : StInv P N st := by
  revert hN
  induction h with
  | zero => exact fun _ => emptyChannel_stinv P hP
  | succ hseq henq ih =>
    intro hN
    exact (StInv.step (ih (by omega)) hP hN henq).1

/-- From any state of the closed-form shape, one more single-message enqueue
succeeds, provided advancing the ring tail would not collide with the head
and the message passes the size check. -/
theorem StInv.enq_exists {P N : Nat} {st : ChannelState}
    (hS : StInv P N st) (hP : 1 ≤ P) (hNW : N < wordSize)
    (hne : wrapInc st.queue.ring_buffer_state.tail_page_idx
      ≠ st.queue.ring_buffer_state.head_page_idx)
    (config : HostConfiguration) (b : Nat) (m : DownwardMessage)
    (hm : m.length ≤ config.max_downward_message_size) :
    ∃ st', queue_downward_message P config st b m = some (.ok st') := by
  have hW := wordSize_pos
  have hP0 : 0 < P := hP
  have hA0 : (0 + P - 1) / P = 0 :=
    (divmod_of_eq (q := 0) (r := P - 1) hP0 (by omega) (by omega)).1
  have hfl : st.queue.message_window_state.first_message_idx < wordSize := by
    rw [hS.first_eq]
    exact hW
  have hfr : st.queue.message_window_state.free_message_idx < wordSize := by
    rw [hS.free_eq]
    omega
  have hhl : st.queue.ring_buffer_state.head_page_idx < wordSize := by
    rw [hS.head_eq]
    exact hW
  have hceil_le : (N + P - 1) / P ≤ N := by
    rcases Nat.eq_zero_or_pos N with h0 | h0
    · rw [h0, hA0]
    · obtain ⟨q, r, hrP, hqr⟩ : ∃ q r, r < P ∧ N - 1 = P * q + r :=
        ⟨(N - 1) / P, (N - 1) % P, Nat.mod_lt _ hP0, (Nat.div_add_mod (N - 1) P).symm⟩
      have hms1 : P * (q + 1) = P * q + P := Nat.mul_succ P q
      have hc1 : (N + P - 1) / P = q + 1 :=
        (divmod_of_eq (q := q + 1) (r := r) hP0 hrP (by omega)).1
      have hqle : q ≤ P * q := Nat.le_mul_of_pos_left q hP0
      rw [hc1]
      omega
  have htl : st.queue.ring_buffer_state.tail_page_idx < wordSize := by
    rw [hS.tail_eq]
    omega
  unfold queue_downward_message
  rw [if_neg (by omega)]
  dsimp only
  rw [MessageWindowState.extend_one _ hfl hfr]
  dsimp only
  by_cases hpos : 0 < st.queue.ring_buffer_state.size
  · have halloc : allocTailPage st.queue.ring_buffer_state
        = some (st.queue.ring_buffer_state,
            wrapDec st.queue.ring_buffer_state.tail_page_idx) := by
      unfold allocTailPage
      rw [RingBufferState.last_used_eq hhl htl hpos]
    rw [halloc]
    dsimp only
    by_cases hroom : ((st.pages
        (wrapDec st.queue.ring_buffer_state.tail_page_idx)).getD []).length < P
    · rw [if_pos hroom]
      exact ⟨_, rfl⟩
    · rw [if_neg hroom, RingBufferState.extend_eq htl hne]
      dsimp only
      rw [if_pos hP]
      exact ⟨_, rfl⟩
  · have h0 : st.queue.ring_buffer_state.size = 0 := by omega
    have halloc : allocTailPage st.queue.ring_buffer_state
        = some ({ st.queue.ring_buffer_state with
              tail_page_idx := wrapInc st.queue.ring_buffer_state.tail_page_idx },
            st.queue.ring_buffer_state.tail_page_idx) := by
      unfold allocTailPage
      rw [RingBufferState.last_used_eq_none hhl htl h0]
      dsimp only
      rw [RingBufferState.extend_eq htl hne]
    rw [halloc]
    dsimp only
    have hpage0 : st.pages st.queue.ring_buffer_state.tail_page_idx = none := by
      refine hS.fresh _ ?_
      rw [hS.tail_eq]
    rw [hpage0]
    rw [if_pos (by simpa using hP0)]
    exact ⟨_, rfl⟩

/-- A run of successful enqueues only visits reachable states. -/
theorem EnqSeq.reachable {P N : Nat} {config : HostConfiguration} {st : ChannelState}
    (h : EnqSeq P config N st) : Reachable P st := by
  induction h with
  | zero => exact .init
  | succ hseq henq ih => exact .enq ih henq

/-- For the production page capacity `32`, the ring tail stays far from
wrapping for any enqueue count up to the full index space. -/
theorem stInv32_ring_ok {N : Nat} {st : ChannelState} (hS : StInv 32 N st)
    (hN : N ≤ wordSize) :
    wrapInc st.queue.ring_buffer_state.tail_page_idx
      ≠ st.queue.ring_buffer_state.head_page_idx := by
  have hWval : wordSize = 2 ^ 64 := rfl
  have hd : (N + 32 - 1) / 32 ≤ (2 ^ 64 + 32 - 1) / 32 :=
    Nat.div_le_div_right (by omega)
  have hd2 : (2 ^ 64 + 32 - 1) / 32 + 1 < 2 ^ 64 := by norm_num
  rw [hS.tail_eq, hS.head_eq, wrapInc_eq (by omega), if_pos (by omega)]
  omega

/-- With page capacity `32`, an empty message and any block number, a run of
any length up to the full index space exists. -/
theorem enqSeq_exists : ∀ N, N ≤ wordSize → ∃ st, EnqSeq 32 ⟨0⟩ N st := by
  intro N
  induction N with
  | zero => exact fun _ => ⟨emptyChannel, .zero⟩
  | succ n ih =>
    intro hN
    obtain ⟨st, hst⟩ := ih (by omega)
    have hS : StInv 32 n st := hst.stInv (by omega) (by omega)
    have hne := stInv32_ring_ok hS (by omega)
    obtain ⟨st', hst'⟩ := hS.enq_exists (by omega) (by omega) hne ⟨0⟩ 0 []
      (Nat.zero_le _)
    exact ⟨st', hst.succ hst'⟩

/-- The enqueue that brings the total to exactly `2^64` succeeds, but wraps
the free index all the way around to the first index: the window size
collapses to `0` while `2^64` messages are actually stored. -/
theorem StInv.wrap_step {P : Nat} {config : HostConfiguration} {st st' : ChannelState}
    {b : Nat} {m : DownwardMessage}
    (hS : StInv P (wordSize - 1) st) (hP : 1 ≤ P)
    (h : queue_downward_message P config st b m = some (.ok st')) :
    st'.windowSize = 0 ∧ st'.totalMessages = wordSize := by
  have hW := wordSize_pos
  have h2 := wordSize_ge_two
  have hP0 : 0 < P := hP
  have hA0 : (0 + P - 1) / P = 0 :=
    (divmod_of_eq (q := 0) (r := P - 1) hP0 (by omega) (by omega)).1
  have hfl : st.queue.message_window_state.first_message_idx < wordSize := by
    rw [hS.first_eq]
    exact hW
  have hfr : st.queue.message_window_state.free_message_idx < wordSize := by
    rw [hS.free_eq]
    omega
  have hhl : st.queue.ring_buffer_state.head_page_idx < wordSize := by
    rw [hS.head_eq]
    exact hW
  have hceil_le : (wordSize - 1 + P - 1) / P ≤ wordSize - 1 := by
    obtain ⟨q, r, hrP, hqr⟩ : ∃ q r, r < P ∧ wordSize - 1 - 1 = P * q + r :=
      ⟨(wordSize - 1 - 1) / P, (wordSize - 1 - 1) % P, Nat.mod_lt _ hP0,
        (Nat.div_add_mod (wordSize - 1 - 1) P).symm⟩
    have hms1 : P * (q + 1) = P * q + P := Nat.mul_succ P q
    have hc1 : (wordSize - 1 + P - 1) / P = q + 1 :=
      (divmod_of_eq (q := q + 1) (r := r) hP0 hrP (by omega)).1
    have hqle : q ≤ P * q := Nat.le_mul_of_pos_left q hP0
    rw [hc1]
    omega
  have htl : st.queue.ring_buffer_state.tail_page_idx < wordSize := by
    rw [hS.tail_eq]
    omega
  have hTeq : totalOf st.queue.ring_buffer_state st.pages = wordSize - 1 :=
    hS.total_eq
  have hwin : wrapSub (wrapAdd st.queue.message_window_state.free_message_idx 1)
      st.queue.message_window_state.first_message_idx = 0 := by
    rw [hS.free_eq, hS.first_eq, wrapAdd_spec (by omega) (by omega),
      if_neg (by omega)]
    have hz : wordSize - 1 + 1 - wordSize = 0 := by omega
    rw [hz]
    unfold wrapSub
    simp
  obtain ⟨hmsg, mwx, newIdx, rb1, pidx, hext, halloc, hbranch⟩ :=
    queue_downward_message_ok_cases h
  rw [MessageWindowState.extend_one _ hfl hfr] at hext
  simp only [Option.some.injEq, Prod.mk.injEq] at hext
  obtain ⟨hmwx, hnewIdx⟩ := hext
  subst hmwx hnewIdx
  rcases allocTailPage_cases hhl htl halloc with
    ⟨hpos, hrb1, hpidx⟩ | ⟨h0, hne, hrb1, hpidx⟩
  · rw [hrb1, hpidx] at hbranch
    rcases hbranch with ⟨hroom, hst'⟩ | ⟨hfull, hcap, rb2, pidx2, hext2, hst'⟩
    · rw [hst']
      refine ⟨hwin, ?_⟩
      show totalOf _ _ = wordSize
      rw [totalOf_push hhl htl hpos ⟨m, b⟩, hTeq]
      omega
    · obtain ⟨hne2, hrb2, hpidx2⟩ : wrapInc st.queue.ring_buffer_state.tail_page_idx ≠
            st.queue.ring_buffer_state.head_page_idx ∧
          rb2 = { st.queue.ring_buffer_state with
            tail_page_idx := wrapInc st.queue.ring_buffer_state.tail_page_idx } ∧
          pidx2 = st.queue.ring_buffer_state.tail_page_idx := by
        unfold RingBufferState.extend at hext2
        split at hext2
        · simp at hext2
        · rename_i hne2
          simp only [Option.some.injEq, Prod.mk.injEq] at hext2
          exact ⟨hne2, hext2.1.symm, by rw [← hext2.2, wrapDec_wrapInc htl]⟩
      rw [hrb2, hpidx2] at hst'
      rw [hst']
      refine ⟨hwin, ?_⟩
      show totalOf _ _ = wordSize
      rw [totalOf_newpage hhl htl hne2 ⟨m, b⟩, hTeq]
      omega
  · rw [hrb1, hpidx] at hbranch
    have hpagenone : st.pages st.queue.ring_buffer_state.tail_page_idx = none := by
      refine hS.fresh _ ?_
      rw [hS.tail_eq]
    rcases hbranch with ⟨hroom, hst'⟩ | ⟨hfull, hcap, rb2, pidx2, hext2, hst'⟩
    · rw [hpagenone] at hst'
      simp only [Option.getD_none, List.nil_append] at hst'
      rw [hst']
      refine ⟨hwin, ?_⟩
      show totalOf _ _ = wordSize
      rw [totalOf_newpage hhl htl hne ⟨m, b⟩, hTeq]
      omega
    · exfalso
      rw [hpagenone] at hfull
      simp only [Option.getD_none, List.length_nil] at hfull
      omega

/-- A channel state with `2^64` live messages is reachable (at the production
page capacity `32`), and on it the window size reads `0`. -/
theorem wrap_state_exists :
    ∃ st, EnqSeq 32 ⟨0⟩ wordSize st ∧ st.windowSize = 0 ∧
      st.totalMessages = wordSize := by
  have h2 := wordSize_ge_two
  obtain ⟨st0, hst0⟩ := enqSeq_exists (wordSize - 1) (by omega)
  have hS : StInv 32 (wordSize - 1) st0 := hst0.stInv (by omega) (by omega)
  have hne := stInv32_ring_ok hS (by omega)
  obtain ⟨st1, henq⟩ := hS.enq_exists (by omega) (by omega) hne ⟨0⟩ 0 []
    (Nat.zero_le _)
  have hwrap := hS.wrap_step (by omega) henq
  have hseq : EnqSeq 32 ⟨0⟩ (wordSize - 1 + 1) st1 := hst0.succ henq
  have heq : wordSize - 1 + 1 = wordSize := by omega
  rw [heq] at hseq
  exact ⟨st1, hseq, hwrap.1, hwrap.2⟩

theorem RingBufferState.toList_eq_nil {s : RingBufferState} (h : s.size = 0) :
    s.toList = [] := by
  unfold RingBufferState.toList
  rw [h]
  rfl

/-- The pruned ring's size, with `Nat` truncated subtraction absorbing the
`min`. -/
theorem RingBufferState.prune_size {s : RingBufferState}
    (hh : s.head_page_idx < wordSize) (ht : s.tail_page_idx < wordSize)
    (count : Nat) : (s.prune count).size = s.size - count := by
  show wrapSub s.tail_page_idx (wrapAdd s.head_page_idx (min s.size count))
    = s.size - count
  have hszeq : s.size = wrapSub s.tail_page_idx s.head_page_idx := rfl
  rw [wrapSub_wrapAdd_right ht hh (by omega)]
  omega

/-- `dmq_contents_bounded` returns the empty list when the queue is empty,
the page count is zero, or the start page is past the occupied range. -/
theorem dmq_contents_bounded_nil {P : Nat} {st : ChannelState}
    {bounds : DmqContentsBounds} (hInv : ChannelInv P st)
    (hcase : st.windowSize = 0 ∨ bounds.page_count = 0 ∨
      st.ringSize ≤ bounds.start_page_index) :
    dmq_contents_bounded st bounds = [] := by
  have hh := hInv.head_lt
  have ht := hInv.tail_lt
  have hpr := RingBufferState.prune_size hh ht bounds.start_page_index
  have hrs : st.ringSize = st.queue.ring_buffer_state.size := rfl
  unfold dmq_contents_bounded
  dsimp only
  rcases hcase with hq | hc | hs
  · have hT0 : totalOf st.queue.ring_buffer_state st.pages = 0 := by
      rw [hInv.sync]
      exact hq
    have hht := (hInv.total_zero hT0).1
    have hsz0 : st.queue.ring_buffer_state.size = 0 := by
      rw [RingBufferState.size_eq_zero_iff hh ht]
      exact hht.symm
    have hsz' : (st.queue.ring_buffer_state.prune bounds.start_page_index).size
        = 0 := by
      rw [hpr]
      omega
    rw [RingBufferState.toList_eq_nil hsz']
    simp
  · rw [hc]
    simp
  · have hsz' : (st.queue.ring_buffer_state.prune bounds.start_page_index).size
        = 0 := by
      rw [hpr]
      omega
    rw [RingBufferState.toList_eq_nil hsz']
    simp

/-- `dmq_contents_bounded` returns at least one message when the queue is
non-empty, the page count is positive, and the start page is in range. -/
theorem dmq_contents_bounded_ne_nil {P : Nat} {st : ChannelState}
    {bounds : DmqContentsBounds} (hInv : ChannelInv P st)
    (hc : bounds.page_count ≠ 0)
    (hs : bounds.start_page_index < st.ringSize) :
    dmq_contents_bounded st bounds ≠ [] := by
  have hh := hInv.head_lt
  have ht := hInv.tail_lt
  have hrs : st.ringSize = st.queue.ring_buffer_state.size := rfl
  have hszlt := st.queue.ring_buffer_state.size_lt
  have hstartW : bounds.start_page_index < wordSize := by omega
  have hmin : min st.queue.ring_buffer_state.size bounds.start_page_index
      = bounds.start_page_index := by omega
  have hpr := RingBufferState.prune_size hh ht bounds.start_page_index
  have hpos' : 0 <
      (st.queue.ring_buffer_state.prune bounds.start_page_index).size := by
    rw [hpr]
    omega
  have hhead' : (st.queue.ring_buffer_state.prune bounds.start_page_index).head_page_idx
      = wrapAdd st.queue.ring_buffer_state.head_page_idx bounds.start_page_index := by
    show wrapAdd st.queue.ring_buffer_state.head_page_idx
      (min st.queue.ring_buffer_state.size bounds.start_page_index) = _
    rw [hmin]
  have hdom := (hInv.dom (wrapAdd st.queue.ring_buffer_state.head_page_idx
      bounds.start_page_index)).mpr
    ⟨wrapAdd_lt _ _, by rw [wrapSub_wrapAdd_self hh hstartW]; omega⟩
  obtain ⟨lp, hlp⟩ : ∃ lp, st.pages (wrapAdd st.queue.ring_buffer_state.head_page_idx
      bounds.start_page_index) = some lp := by
    rcases hx : st.pages (wrapAdd st.queue.ring_buffer_state.head_page_idx
        bounds.start_page_index) with - | lp
    · exact absurd hx hdom
    · exact ⟨lp, rfl⟩
  have hlpne := hInv.nonempty _ _ hlp
  obtain ⟨k, hk⟩ : ∃ k, bounds.page_count = k + 1 :=
    ⟨bounds.page_count - 1, by omega⟩
  have htl := RingBufferState.toList_pop
    (s := st.queue.ring_buffer_state.prune bounds.start_page_index)
    (by rw [hhead']; exact wrapAdd_lt _ _) ht hpos'
  have hval : dmq_contents_bounded st bounds =
      ((((st.queue.ring_buffer_state.prune bounds.start_page_index).toList).take
          bounds.page_count).map (fun p => (st.pages p).getD [])).flatten := rfl
  intro hcontra
  rw [hval, htl, hk, List.take_succ_cons, List.map_cons, List.flatten_cons]
    at hcontra
  rw [hhead', hlp] at hcontra
  simp only [Option.getD_some] at hcontra
  rw [List.append_eq_nil] at hcontra
  exact hlpne hcontra.1

/-- An (invariant-consistent) channel whose ring holds exactly `2^32` pages
of one message each: the smallest shape on which the `as u32` casts of the
read APIs truncate. -/
def bigChannel : ChannelState where
  queue := ⟨⟨0, 2 ^ 32⟩, ⟨0, 2 ^ 32⟩⟩
  pages := fun p =>
    if p < 2 ^ 32 then some [(⟨[], 0⟩ : InboundDownwardMessage)] else none
  mqcHead := none
  mqcById := fun _ => none

theorem bigChannel_ringSize : bigChannel.ringSize = 2 ^ 32 := by
  show wrapSub (2 ^ 32) 0 = 2 ^ 32
  exact wrapSub_zero (by norm_num [wordSize])

theorem bigChannel_total :
    totalOf bigChannel.queue.ring_buffer_state bigChannel.pages = 2 ^ 32 := by
  have hWval : wordSize = 2 ^ 64 := rfl
  have h32 : (2 : Nat) ^ 32 < 2 ^ 64 := by norm_num
  have hhead : bigChannel.queue.ring_buffer_state.head_page_idx = 0 := rfl
  have htail : bigChannel.queue.ring_buffer_state.tail_page_idx = 2 ^ 32 := rfl
  have hsz : bigChannel.queue.ring_buffer_state.size = 2 ^ 32 := bigChannel_ringSize
  unfold totalOf
  rw [RingBufferState.toList_eq (by rw [hhead]; omega) (by rw [htail]; omega), hsz]
  have hidmap : (List.range (2 ^ 32)).map
      (fun i => wrapAdd bigChannel.queue.ring_buffer_state.head_page_idx i)
        = List.range (2 ^ 32) := by
    have hcongr : ∀ i ∈ List.range (2 ^ 32),
        wrapAdd bigChannel.queue.ring_buffer_state.head_page_idx i = id i := by
      intro i hi
      rw [List.mem_range] at hi
      rw [hhead]
      show (0 + i) % wordSize = i
      rw [Nat.zero_add]
      exact Nat.mod_eq_of_lt (by omega)
    rw [List.map_congr_left hcongr, List.map_id]
  rw [hidmap]
  have hone : ∀ p ∈ List.range (2 ^ 32),
      ((bigChannel.pages p).getD []).length = (fun _ => 1) p := by
    intro p hp
    rw [List.mem_range] at hp
    show ((if p < 2 ^ 32 then some [(⟨[], 0⟩ : InboundDownwardMessage)]
      else none).getD []).length = 1
    rw [if_pos hp]
    rfl
  rw [List.map_congr_left hone, List.map_const', List.sum_const_nat,
    List.length_range]
  omega

theorem bigChannel_inv : ChannelInv 32 bigChannel := by
  have hWval : wordSize = 2 ^ 64 := rfl
  have h32 : (2 : Nat) ^ 32 < 2 ^ 64 := by norm_num
  have hsz : bigChannel.queue.ring_buffer_state.size = 2 ^ 32 := bigChannel_ringSize
  have hhead : bigChannel.queue.ring_buffer_state.head_page_idx = 0 := rfl
  have htail : bigChannel.queue.ring_buffer_state.tail_page_idx = 2 ^ 32 := rfl
  have hfirst : bigChannel.queue.message_window_state.first_message_idx = 0 := rfl
  have hfree : bigChannel.queue.message_window_state.free_message_idx = 2 ^ 32 := rfl
  have hmw : bigChannel.queue.message_window_state.size = 2 ^ 32 := by
    show wrapSub (2 ^ 32) 0 = 2 ^ 32
    exact wrapSub_zero (by omega)
  refine ⟨by rw [hhead]; omega, by rw [htail]; omega, by rw [hfirst]; omega,
    by rw [hfree]; omega, ?_, ?_, ?_, ?_, ?_⟩
  · intro p
    constructor
    · intro hne
      by_cases hp : p < 2 ^ 32
      · refine ⟨by omega, ?_⟩
        rw [hhead, hsz, wrapSub_zero (by omega)]
        exact hp
      · exfalso
        apply hne
        show (if p < 2 ^ 32 then some [(⟨[], 0⟩ : InboundDownwardMessage)]
          else none) = none
        rw [if_neg hp]
    · rintro ⟨hpW, hd⟩
      rw [hhead, hsz, wrapSub_zero hpW] at hd
      show (if p < 2 ^ 32 then some [(⟨[], 0⟩ : InboundDownwardMessage)]
        else none) ≠ none
      rw [if_pos hd]
      simp
  · intro p l hl
    have hl' : (if p < 2 ^ 32 then some [(⟨[], 0⟩ : InboundDownwardMessage)]
        else none) = some l := hl
    split at hl'
    · simp only [Option.some.injEq] at hl'
      rw [← hl']
      simp
    · cases hl'
  · intro p l hl
    have hl' : (if p < 2 ^ 32 then some [(⟨[], 0⟩ : InboundDownwardMessage)]
        else none) = some l := hl
    split at hl'
    · simp only [Option.some.injEq] at hl'
      rw [← hl']
      simp
    · cases hl'
  · rw [bigChannel_total, hmw]
  · rw [bigChannel_total]
    omega

/-- The MQC head after enqueueing the empty message at block `0` on a fresh
channel. -/
def exampleHead : Hash := .ofTriple .zero 0 (.ofMessage [])

/-- The channel state after one successful enqueue (empty message, block `0`)
on a fresh channel with page capacity `32`. -/
def oneMsgChannel : ChannelState where
  queue := ⟨⟨0, 1⟩, ⟨0, 1⟩⟩
  pages := updateFn (fun _ => none) 0 (some [⟨[], 0⟩])
  mqcHead := some exampleHead
  mqcById := updateFn (fun _ => none) 0 (some exampleHead)

theorem enq_one :
    queue_downward_message 32 ⟨0⟩ emptyChannel 0 [] = some (.ok oneMsgChannel) := by
  rfl

theorem clean_one_pages :
    ∀ p, (clean_dmp_after_outgoing oneMsgChannel).pages p = none := by
  intro p
  show (if p ∈ oneMsgChannel.queue.ring_buffer_state.toList then none
    else oneMsgChannel.pages p) = none
  by_cases hp : p ∈ oneMsgChannel.queue.ring_buffer_state.toList
  · rw [if_pos hp]
  · rw [if_neg hp]
    have hp0 : p ≠ 0 := by
      intro hc
      apply hp
      rw [hc]
      decide
    show (if p = 0 then some [(⟨[], 0⟩ : InboundDownwardMessage)]
      else (fun _ => none) p) = none
    rw [if_neg hp0]

/-! ### Helper for the MQC head shape of a successful enqueue -/

theorem queue_downward_message_head {P : Nat} {config : HostConfiguration}
    {st st' : ChannelState} {b : Nat} {m : DownwardMessage}
    (h : queue_downward_message P config st b m = some (.ok st')) :
    st'.mqcHead = some (Hash.ofTriple (st.mqcHead.getD Hash.zero) b
      (Hash.ofMessage m)) := by
  obtain ⟨-, mwx, newIdx, rb1, pidx, -, -, hbranch⟩ :=
    queue_downward_message_ok_cases h
  rcases hbranch with ⟨-, hst'⟩ | ⟨-, -, rb2, pidx2, -, hst'⟩
  · rw [hst']
  · rw [hst']

/-! ### The claims -/

/-- C1: in every safely reachable state (total live messages below `2^64` at
every step of the history), the message-window size `free - first (mod 2^64)`
equals the total number of messages stored across the occupied pages. -/
theorem C1_window_size_eq_total {P : Nat} {st : ChannelState}
    (hre : SafeReachable P st) : st.windowSize = st.totalMessages :=
  (SafeReachable.inv hre).sync.symm

theorem C1_witness : oneMsgChannel.windowSize = oneMsgChannel.totalMessages :=
  C1_window_size_eq_total (.enq .init enq_one (by decide))

/-- C1 as frozen is false: with unbounded histories, `2^64` enqueues are
reachable and wrap the window size to `0` while `2^64` messages are stored. -/
theorem C1_counterexample :
    ∃ st, Reachable 32 st ∧ st.windowSize ≠ st.totalMessages := by
  obtain ⟨st, hseq, hw, ht⟩ := wrap_state_exists
  refine ⟨st, hseq.reachable, ?_⟩
  rw [hw, ht]
  norm_num [wordSize]

/-- C2: every successful enqueue sets both the channel's global MQC head and
the per-message head at the newly assigned message index (the pre-call free
index) to `Hash(prevGlobalHead, blockNumber, Hash(msg))`, and this head is a
pure function of the `(prevGlobalHead, blockNumber, msg)` triple: any second
successful run on the same triple produces the same head. -/
theorem C2_mqc_determinism {P : Nat} {config : HostConfiguration}
    {st st' : ChannelState} {blockNumber : Nat} {msg : DownwardMessage}
    (hre : SafeReachable P st)
    (h : queue_downward_message P config st blockNumber msg = some (.ok st')) :
    st'.mqcHead = some (Hash.ofTriple (st.mqcHead.getD Hash.zero) blockNumber
      (Hash.ofMessage msg)) ∧
    st'.mqcById st.queue.message_window_state.free_message_idx
      = some (Hash.ofTriple (st.mqcHead.getD Hash.zero) blockNumber
        (Hash.ofMessage msg)) ∧
    ∀ {config2 : HostConfiguration} {st2 st2' : ChannelState},
      queue_downward_message P config2 st2 blockNumber msg = some (.ok st2') →
      st2.mqcHead = st.mqcHead → st2'.mqcHead = st'.mqcHead := by
  have hInv := hre.inv
  refine ⟨queue_downward_message_head h, ?_, ?_⟩
  · obtain ⟨-, mwx, newIdx, rb1, pidx, hext, -, hbranch⟩ :=
      queue_downward_message_ok_cases h
    rw [MessageWindowState.extend_one _ hInv.first_lt hInv.free_lt] at hext
    simp only [Option.some.injEq, Prod.mk.injEq] at hext
    obtain ⟨hmwx, hnewIdx⟩ := hext
    subst hmwx hnewIdx
    rcases hbranch with ⟨-, hst'⟩ | ⟨-, -, rb2, pidx2, -, hst'⟩
    · rw [hst']
      exact updateFn_same _ _ _
    · rw [hst']
      exact updateFn_same _ _ _
  · intro config2 st2 st2' h2 hhead
    rw [queue_downward_message_head h2, queue_downward_message_head h, hhead]

theorem C2_witness :
    oneMsgChannel.mqcHead
      = some (Hash.ofTriple (emptyChannel.mqcHead.getD Hash.zero) 0
          (Hash.ofMessage [])) ∧
    oneMsgChannel.mqcById emptyChannel.queue.message_window_state.free_message_idx
      = some (Hash.ofTriple (emptyChannel.mqcHead.getD Hash.zero) 0
          (Hash.ofMessage [])) ∧
    oneMsgChannel.mqcHead = oneMsgChannel.mqcHead :=
  ⟨(C2_mqc_determinism .init enq_one).1,
   (C2_mqc_determinism .init enq_one).2.1,
   (C2_mqc_determinism .init enq_one).2.2 enq_one rfl⟩

/-- C3 (the claim is the spec's offboarding scenario; the code contradicts
it): `clean_dmp_after_outgoing` on a reachable channel with one occupied
page removes every page record and the global MQC head, but leaves
`DownwardMessageQueueState` behind, so a subsequent `dmq_length` returns `1`,
not `0` as the claim requires. -/
theorem C3_retire_keeps_queue_state :
    Reachable 32 oneMsgChannel ∧
    0 < oneMsgChannel.ringSize ∧
    (∀ p, (clean_dmp_after_outgoing oneMsgChannel).pages p = none) ∧
    (clean_dmp_after_outgoing oneMsgChannel).mqcHead = none ∧
    dmq_length (clean_dmp_after_outgoing oneMsgChannel) = 1 :=
  ⟨.enq .init enq_one, by decide, clean_one_pages, rfl, by decide⟩

/-- C4: `check_processed_downward_messages` is a pure check returning
`Underflow k len` iff `k` exceeds the reported queue length, the advancement
error iff the queue is non-empty and `k = 0`, and `Ok` otherwise. -/
theorem C4_check_processed_characterization (st : ChannelState) (k : Nat) :
    (check_processed_downward_messages st k
        = .error (.Underflow k (dmq_length st)) ↔ dmq_length st < k) ∧
    (check_processed_downward_messages st k = .error .AdvancementRule
        ↔ (0 < dmq_length st ∧ k = 0)) ∧
    (¬ dmq_length st < k → ¬ (0 < dmq_length st ∧ k = 0) →
      check_processed_downward_messages st k = .ok ()) := by
  unfold check_processed_downward_messages
  dsimp only
  by_cases h1 : 0 < dmq_length st ∧ k = 0
  · rw [if_pos h1]
    refine ⟨⟨fun hc => ?_, fun hc => ?_⟩, ⟨fun _ => h1, fun _ => rfl⟩,
      fun hc1 hc2 => absurd h1 hc2⟩
    · simp at hc
    · exact absurd hc (by omega)
  · rw [if_neg h1]
    by_cases h2 : dmq_length st < k
    · rw [if_pos h2]
      refine ⟨⟨fun _ => h2, fun _ => rfl⟩, ⟨fun hc => ?_, fun hc => absurd hc h1⟩,
        fun hc1 _ => absurd h2 hc1⟩
      simp at hc
    · rw [if_neg h2]
      refine ⟨⟨fun hc => ?_, fun hc => absurd hc h2⟩,
        ⟨fun hc => ?_, fun hc => absurd hc h1⟩, fun _ _ => rfl⟩
      · simp at hc
      · simp at hc

theorem ceil_div_le_self {P N : Nat} (hP : 0 < P) : (N + P - 1) / P ≤ N := by
  rcases Nat.eq_zero_or_pos N with h0 | h0
  · rw [h0, (divmod_of_eq (q := 0) (r := P - 1) hP (by omega) (by omega)).1]
  · obtain ⟨q, r, hrP, hqr⟩ : ∃ q r, r < P ∧ N - 1 = P * q + r :=
      ⟨(N - 1) / P, (N - 1) % P, Nat.mod_lt _ hP, (Nat.div_add_mod (N - 1) P).symm⟩
    have hms1 : P * (q + 1) = P * q + P := Nat.mul_succ P q
    have hc1 : (N + P - 1) / P = q + 1 :=
      (divmod_of_eq (q := q + 1) (r := r) hP hrP (by omega)).1
    have hqle : q ≤ P * q := Nat.le_mul_of_pos_left q hP
    rw [hc1]
    omega

/-- C5 (amended with the history bound `N < 2^64`): after `N` single-message
enqueues from the default state the window size is `N`, the ring holds
`⌈N/P⌉` pages, no page exceeds `P` messages, and (while the bound still
holds) the next message is appended to the last used page when it has room
and otherwise becomes the sole entry of a freshly allocated page. -/
theorem C5_enqueue_run_shape {P N : Nat} {config : HostConfiguration}
    {st : ChannelState} (h : EnqSeq P config N st) (hP : 1 ≤ P)
    (hN : N < wordSize) :
    st.windowSize = N ∧
    st.ringSize = (N + P - 1) / P ∧
    (∀ p l, st.pages p = some l → l.length ≤ P) ∧
    ∀ {b : Nat} {m : DownwardMessage} {st' : ChannelState},
      N + 1 < wordSize →
      queue_downward_message P config st b m = some (.ok st') →
      ((0 < st.ringSize ∧
        ∃ t l, st.queue.ring_buffer_state.last_used = some t ∧
          st.pages t = some l ∧ l.length < P ∧
          st'.queue.ring_buffer_state = st.queue.ring_buffer_state ∧
          st'.pages t = some (l ++ [⟨m, b⟩])) ∨
       ((st.ringSize = 0 ∨
         ∃ t l, st.queue.ring_buffer_state.last_used = some t ∧
           st.pages t = some l ∧ l.length = P) ∧
        st'.ringSize = st.ringSize + 1 ∧
        st'.pages st.queue.ring_buffer_state.tail_page_idx = some [⟨m, b⟩])) := by
  have hS := h.stInv hP hN
  have hceil : (N + P - 1) / P ≤ N := ceil_div_le_self hP
  refine ⟨?_, ?_, hS.bounded, ?_⟩
  · show wrapSub st.queue.message_window_state.free_message_idx
      st.queue.message_window_state.first_message_idx = N
    rw [hS.free_eq, hS.first_eq, wrapSub_zero hN]
  · show wrapSub st.queue.ring_buffer_state.tail_page_idx
      st.queue.ring_buffer_state.head_page_idx = (N + P - 1) / P
    rw [hS.head_eq, hS.tail_eq, wrapSub_zero (Nat.lt_of_le_of_lt hceil hN)]
  · intro b m st' hN1 henq
    exact (hS.step hP hN1 henq).2

theorem C5_witness :
    oneMsgChannel.windowSize = 1 ∧ oneMsgChannel.ringSize = (1 + 32 - 1) / 32 :=
  ⟨(C5_enqueue_run_shape (.succ .zero enq_one) (by omega)
      (by norm_num [wordSize])).1,
   (C5_enqueue_run_shape (.succ .zero enq_one) (by omega)
      (by norm_num [wordSize])).2.1⟩

/-- C5 as frozen (for every `N`) is false: after `2^64` single-message
enqueues the window size reads `0`, not `2^64`. -/
theorem C5_counterexample :
    ∃ st, EnqSeq 32 ⟨0⟩ wordSize st ∧ st.windowSize ≠ wordSize := by
  obtain ⟨st, hseq, hw, -⟩ := wrap_state_exists
  refine ⟨st, hseq, ?_⟩
  rw [hw]
  norm_num [wordSize]

/-- C6: pruning at least the whole window (`windowSize ≤ k`, which also
covers the trivially empty queue) leaves the persisted queue state empty —
`first = free`, `head = tail` — and removes every page record. -/
theorem C6_prune_past_end_empties {P : Nat} {st : ChannelState} {k : Nat}
    (hre : SafeReachable P st) (hk : st.windowSize ≤ k) :
    (prune_dmq P st k).queue.message_window_state.first_message_idx
      = (prune_dmq P st k).queue.message_window_state.free_message_idx ∧
    (prune_dmq P st k).queue.ring_buffer_state.head_page_idx
      = (prune_dmq P st k).queue.ring_buffer_state.tail_page_idx ∧
    ∀ p, (prune_dmq P st k).pages p = none := by
  have hInv := hre.inv
  have hsync : st.totalMessages = st.windowSize := hInv.sync
  have hInv' : ChannelInv P (prune_dmq P st k) := prune_dmq_preserves_inv hInv
  have htot' : (prune_dmq P st k).totalMessages = 0 := by
    by_cases hq : st.queue.message_window_state.size = 0
    · rw [prune_dmq_noop_of_empty hq]
      rw [hsync]
      exact hq
    · by_cases hk0 : k = 0
      · exfalso
        apply hq
        show st.windowSize = 0
        omega
      · obtain ⟨-, htot, -, -, -, -, -⟩ := prune_dmq_char hInv hq hk0
        rw [htot]
        omega
  obtain ⟨hht, hpg⟩ := hInv'.total_zero htot'
  refine ⟨?_, hht, hpg⟩
  have hw0 : (prune_dmq P st k).queue.message_window_state.size = 0 := by
    rw [← hInv'.sync]
    exact htot'
  exact ((wrapSub_eq_zero_iff hInv'.free_lt hInv'.first_lt).mp hw0).symm

theorem C6_witness :
    (prune_dmq 32 oneMsgChannel 1).queue.message_window_state.first_message_idx
      = (prune_dmq 32 oneMsgChannel 1).queue.message_window_state.free_message_idx ∧
    (prune_dmq 32 oneMsgChannel 1).queue.ring_buffer_state.head_page_idx
      = (prune_dmq 32 oneMsgChannel 1).queue.ring_buffer_state.tail_page_idx ∧
    ∀ p, (prune_dmq 32 oneMsgChannel 1).pages p = none :=
  C6_prune_past_end_empties (.enq .init enq_one (by decide)) (by decide)

/-- C7: for a non-empty queue and `0 < k ≤ dmq_length`, `prune_dmq` deletes
the per-message MQC heads at exactly the indices `first + 0, ..., first + k-1`
(mod `2^64`): those entries become `none`, surviving in-window indices keep
their entries, any index outside the removed range is untouched, and the
global MQC head is unchanged. -/
theorem C7_prune_mqc_frame {P : Nat} {st : ChannelState} {k : Nat}
    (hre : SafeReachable P st) (hk0 : 0 < k) (hk : k ≤ dmq_length st) :
    (∀ j, j < k → (prune_dmq P st k).mqcById
        (wrapAdd st.queue.message_window_state.first_message_idx j) = none) ∧
    (∀ j, k ≤ j → j < st.windowSize →
      (prune_dmq P st k).mqcById
          (wrapAdd st.queue.message_window_state.first_message_idx j)
        = st.mqcById
            (wrapAdd st.queue.message_window_state.first_message_idx j)) ∧
    (∀ i, (∀ j, j < k →
        i ≠ wrapAdd st.queue.message_window_state.first_message_idx j) →
      (prune_dmq P st k).mqcById i = st.mqcById i) ∧
    (prune_dmq P st k).mqcHead = st.mqcHead := by
  have hInv := hre.inv
  have hlen : dmq_length st = st.queue.message_window_state.size % word32Size :=
    rfl
  have h32 : 0 < word32Size := by norm_num [word32Size]
  have hwpos : st.queue.message_window_state.size ≠ 0 := by
    intro hq
    rw [hlen, hq, Nat.zero_mod] at hk
    omega
  have hmodle : st.queue.message_window_state.size % word32Size
      ≤ st.queue.message_window_state.size := Nat.mod_le _ _
  have hsync : st.totalMessages = st.windowSize := hInv.sync
  have hwin : st.windowSize = st.queue.message_window_state.size := rfl
  have hkT : k ≤ st.totalMessages := by
    rw [hlen] at hk
    omega
  have hmin : min k st.totalMessages = k := by omega
  obtain ⟨-, -, -, -, -, hhead, hbyid⟩ :=
    prune_dmq_char (k := k) hInv hwpos (by omega)
  rw [hmin] at hbyid
  have hframe : ∀ i, (∀ j, j < k →
      i ≠ wrapAdd st.queue.message_window_state.first_message_idx j) →
      (prune_dmq P st k).mqcById i = st.mqcById i := by
    intro i hi
    rw [hbyid, if_neg]
    intro hc
    rw [List.mem_map] at hc
    obtain ⟨j, hjr, hji⟩ := hc
    exact hi j (List.mem_range.mp hjr) hji.symm
  refine ⟨?_, ?_, hframe, hhead⟩
  · intro j hj
    rw [hbyid, if_pos]
    rw [List.mem_map]
    exact ⟨j, List.mem_range.mpr hj, rfl⟩
  · intro j hkj hjw
    refine hframe _ ?_
    intro j' hj' hc
    have hfl := hInv.first_lt
    have hwlt : st.queue.message_window_state.size < wordSize :=
      MessageWindowState.size_word_lt _
    have hje : j = j' := wrapAdd_right_injective hfl
      (by rw [hwin] at hjw; omega) (by omega) hc
    omega

theorem C7_witness :
    (prune_dmq 32 oneMsgChannel 1).mqcById
        (wrapAdd oneMsgChannel.queue.message_window_state.first_message_idx 0)
      = none ∧
    (prune_dmq 32 oneMsgChannel 1).mqcHead = oneMsgChannel.mqcHead :=
  ⟨(C7_prune_mqc_frame (.enq .init enq_one (by decide)) (by decide)
      (by decide)).1 0 (by decide),
   (C7_prune_mqc_frame (.enq .init enq_one (by decide)) (by decide)
      (by decide)).2.2.2⟩

/-- C8: `dmq_contents_bounded` is a pure read returning the empty list when
the queue is empty, the page count is zero, or the start page lies past the
occupied range; and at least one message as soon as the page count is
positive and the start page is within the (then necessarily non-empty)
occupied range. -/
theorem C8_dmq_contents_bounded_spec {P : Nat} {st : ChannelState}
    (hre : SafeReachable P st) (bounds : DmqContentsBounds) :
    ((st.windowSize = 0 ∨ bounds.page_count = 0 ∨
        st.ringSize ≤ bounds.start_page_index) →
      dmq_contents_bounded st bounds = []) ∧
    (bounds.page_count ≠ 0 → bounds.start_page_index < st.ringSize →
      dmq_contents_bounded st bounds ≠ []) :=
  ⟨fun hc => dmq_contents_bounded_nil hre.inv hc,
   fun h1 h2 => dmq_contents_bounded_ne_nil hre.inv h1 h2⟩

theorem C8_witness :
    dmq_contents_bounded oneMsgChannel ⟨1, 1⟩ = [] ∧
    dmq_contents_bounded oneMsgChannel ⟨0, 1⟩ ≠ [] :=
  ⟨(C8_dmq_contents_bounded_spec (.enq .init enq_one (by decide)) ⟨1, 1⟩).1
      (Or.inr (Or.inr (by decide))),
   (C8_dmq_contents_bounded_spec (.enq .init enq_one (by decide)) ⟨0, 1⟩).2
      (by decide) (by decide)⟩

/-- C9: `MessageWindow::extend(count)` faults exactly when the window is
non-empty and the free index would overtake the first index; otherwise it
advances the free index by `count` and returns `old_free + count - 1` in
wrapping `2^64` arithmetic (the index of the last newly added message),
leaving the first index unchanged. -/
theorem C9_window_extend_spec (s : MessageWindowState) (count : Nat) :
    (s.extend count = none ↔
      (0 < s.size ∧ wrapSub s.first_message_idx s.free_message_idx < count)) ∧
    ∀ s' idx, s.extend count = some (s', idx) →
      s'.free_message_idx = wrapAdd s.free_message_idx count ∧
      s'.first_message_idx = s.first_message_idx ∧
      idx = (s.free_message_idx + count + (wordSize - 1)) % wordSize := by
  have h2 := wordSize_ge_two
  have harith : wrapDec (wrapAdd s.free_message_idx count)
      = (s.free_message_idx + count + (wordSize - 1)) % wordSize := by
    unfold wrapDec wrapSub wrapAdd
    rw [show (1 % wordSize) = 1 from Nat.mod_eq_of_lt (by omega)]
    rw [Nat.mod_add_mod]
  unfold MessageWindowState.extend
  by_cases hg : 0 < s.size ∧ wrapSub s.first_message_idx s.free_message_idx < count
  · rw [if_pos hg]
    refine ⟨⟨fun _ => hg, fun _ => rfl⟩, fun s' idx hc => ?_⟩
    simp at hc
  · rw [if_neg hg]
    refine ⟨⟨fun hc => ?_, fun hgc => absurd hgc hg⟩, fun s' idx hc => ?_⟩
    · simp at hc
    · simp only [Option.some.injEq, Prod.mk.injEq] at hc
      obtain ⟨hs', hidx⟩ := hc
      rw [← hs', ← hidx]
      exact ⟨rfl, rfl, harith⟩

/-- C10 (amended with the no-truncation bound `ringSize < 2^32`): the
deprecated `dmq_contents` coincides with `dmq_contents_bounded` reading all
occupied pages from the head. -/
theorem C10_dmq_contents_eq_bounded {st : ChannelState}
    (hsz : st.ringSize < word32Size) :
    dmq_contents st = dmq_contents_bounded st ⟨0, st.ringSize⟩ := by
  unfold dmq_contents
  have hmod : st.queue.ring_buffer_state.size % word32Size
      = st.queue.ring_buffer_state.size := Nat.mod_eq_of_lt hsz
  rw [hmod]
  rfl

theorem C10_witness :
    dmq_contents oneMsgChannel
      = dmq_contents_bounded oneMsgChannel ⟨0, oneMsgChannel.ringSize⟩ :=
  C10_dmq_contents_eq_bounded (by decide)

/-- C10 as frozen is false: on an (invariant-consistent) channel with `2^32`
occupied pages the `as u32` cast makes `dmq_contents` read zero pages, while
the bounded read over all occupied pages returns messages. -/
theorem C10_counterexample :
    dmq_contents bigChannel
      ≠ dmq_contents_bounded bigChannel ⟨0, bigChannel.ringSize⟩ := by
  have hsz : bigChannel.queue.ring_buffer_state.size = 2 ^ 32 :=
    bigChannel_ringSize
  have hmod : bigChannel.queue.ring_buffer_state.size % word32Size = 0 := by
    rw [hsz]
    norm_num [word32Size]
  have hnil : dmq_contents bigChannel = [] := by
    unfold dmq_contents
    rw [hmod]
    exact dmq_contents_bounded_nil bigChannel_inv (Or.inr (Or.inl rfl))
  have hne : dmq_contents_bounded bigChannel ⟨0, bigChannel.ringSize⟩ ≠ [] := by
    refine dmq_contents_bounded_ne_nil bigChannel_inv ?_ ?_
    · show bigChannel.ringSize ≠ 0
      rw [bigChannel_ringSize]
      norm_num
    · show (0 : Nat) < bigChannel.ringSize
      rw [bigChannel_ringSize]
      norm_num
  intro hc
  rw [hnil] at hc
  exact hne hc.symm

theorem C4_witness :
    check_processed_downward_messages oneMsgChannel 1 = .ok () :=
  (C4_check_processed_characterization oneMsgChannel 1).2.2 (by decide) (by decide)

theorem C9_witness :
    (⟨0, 1⟩ : MessageWindowState).free_message_idx = wrapAdd 0 1 ∧
    (⟨0, 1⟩ : MessageWindowState).first_message_idx
      = (⟨0, 0⟩ : MessageWindowState).first_message_idx ∧
    (0 : Nat) = (0 + 1 + (wordSize - 1)) % wordSize :=
  (C9_window_extend_spec ⟨0, 0⟩ 1).2 ⟨0, 1⟩ 0 (by decide)
